import Mathlib

/-!
Gaussian conditionals and their in-place solves.

A shallow embedding of `gtsam/linear/GaussianConditional.cpp`.

Scalars are rationals: the C++ code computes in `double`, the properties studied
here are the exact-arithmetic ones.  A dynamic-size Eigen vector is a list of
scalars, a dynamic-size Eigen matrix is a rectangular list of rows.  Every
operation that the C++ code guards by an assertion (an explicit `assert`, an
Eigen size check, a `VectorValues` variable check) is fallible here.
-/

set_option autoImplicit false

namespace gtsam

/-- Variable index (`Index` in the source). -/
abbrev Index := Nat

/-- Dynamic-size column vector. -/
abbrev Vector := List ℚ

/-- Dynamic-size matrix, stored by rows; every row has `cols` entries. -/
structure Matrix where
  rows : Nat
  cols : Nat
  data : List (List ℚ)
  wf : data.length = rows ∧ ∀ r ∈ data, r.length = cols

/-- Coefficient `M(i, j)`; zero outside the matrix. -/
def Matrix.entry (M : Matrix) (i j : Nat) : ℚ := (M.data.getD i []).getD j 0

/-! ### Vector arithmetic -/

/-- Inner product of two vectors. -/
def dot : Vector → Vector → ℚ
  | a :: as, b :: bs => a * b + dot as bs
  | _, _ => 0

/-- Coefficient-wise sum `a + b`. -/
def vadd (a b : Vector) : Vector := List.zipWith (fun s t => s + t) a b

/-- Coefficient-wise difference `a - b`. -/
def vsub (a b : Vector) : Vector := List.zipWith (fun s t => s - t) a b

/-- Scalar multiple `s * a`. -/
def smul (s : ℚ) (a : Vector) : Vector := a.map (fun t => s * t)

/-- Coefficient-wise product (`emul` in the source). -/
def emul (a b : Vector) : Vector := List.zipWith (fun s t => s * t) a b

/-- Matrix-vector product on rows. -/
def mulVecRows (rs : List (List ℚ)) (v : Vector) : Vector := rs.map (fun r => dot r v)

/-- Matrix-vector product `M * v`. -/
def Matrix.mulVec (M : Matrix) (v : Vector) : Vector := mulVecRows M.data v

/-- Transposed product on rows: the sum of `y_i * row_i`, a vector of size `n`. -/
def tmulVecRows (n : Nat) : List (List ℚ) → Vector → Vector
  | r :: rs, y :: ys => vadd (smul y r) (tmulVecRows n rs ys)
  | _, _ => List.replicate n 0

/-- Transposed matrix-vector product `Mᵀ * y`. -/
def Matrix.tmulVec (M : Matrix) (y : Vector) : Vector := tmulVecRows M.cols M.data y

/-- Unary minus of a matrix. -/
def Matrix.neg (M : Matrix) : Matrix where
  rows := M.rows
  cols := M.cols
  data := M.data.map (fun r => r.map (fun t => -t))
  wf := by
    refine ⟨by simpa using M.wf.1, ?_⟩
    intro r hr
    obtain ⟨r0, hr0, rfl⟩ := List.mem_map.1 hr
    simpa using M.wf.2 r0 hr0

/-- Rows of the upper-triangular view: in the row of index `k` the entries left of
the diagonal are replaced by zero. -/
def upperRows : Nat → List (List ℚ) → List (List ℚ)
  | _, [] => []
  | k, r :: rs => (List.replicate (min k r.length) 0 ++ r.drop k) :: upperRows (k + 1) rs

/-- Dense copy of `R.triangularView<Eigen::Upper>()`: the part below the diagonal
reads as zero. -/
def Matrix.triangularViewUpper (M : Matrix) : Matrix where
  rows := M.rows
  cols := M.cols
  data := upperRows 0 M.data
  wf := by
    have hlen : ∀ (rs : List (List ℚ)) (k : Nat), (upperRows k rs).length = rs.length := by
      intro rs
      induction rs with
      | nil => intro k; rfl
      | cons r rs ih => intro k; simp [upperRows, ih]
    have hrow : ∀ (rs : List (List ℚ)) (k : Nat), (∀ r ∈ rs, r.length = M.cols) →
        ∀ r ∈ upperRows k rs, r.length = M.cols := by
      intro rs
      induction rs with
      | nil => intro k _ r hr; simp [upperRows] at hr
      | cons r0 rs ih =>
        intro k h r hr
        simp only [upperRows, List.mem_cons] at hr
        rcases hr with rfl | hr
        · have h0 : r0.length = M.cols := h r0 (List.mem_cons_self _ _)
          simp only [List.length_append, List.length_replicate, List.length_drop, h0]
          omega
        · exact ih (k + 1) (fun r hr => h r (List.mem_cons_of_mem _ hr)) r hr
    exact ⟨by rw [hlen]; exact M.wf.1, hrow M.data 0 M.wf.2⟩

/-! ### Triangular solves -/

/-- Modelled from the spec: the upper-triangular solve of `R * x = b` by
back-substitution (Eigen's `triangularView<Eigen::Upper>().solve`, whose source is
not part of the repository).  The first row of the list has index `k`; only
entries on and right of the diagonal are read:
`x_i = (b_i - sum_{j > i} R_ij * x_j) / R_ii`. -/
def backSub : Nat → List (List ℚ) → Vector → Vector
  | _, [], _ => []
  | k, r :: rs, b =>
    ((b.headD 0 - dot (r.drop (k + 1)) (backSub (k + 1) rs b.tail)) / r.getD k 0)
      :: backSub (k + 1) rs b.tail

/-- Modelled from the spec: `R.triangularView<Eigen::Upper>().solve(b)`; Eigen
requires a square matrix whose size is that of `b`. -/
def Matrix.solveUpper (R : Matrix) (b : Vector) : Option Vector :=
  if R.rows = R.cols ∧ R.cols = b.length then some (backSub 0 R.data b) else none

/-- Modelled from the spec: the transposed triangular solve of `xᵀ * U = bᵀ`
by substitution from the first unknown on (`backSubstituteUpper(b, U)` of the
matrix library, whose source is not part of the repository).  The first row of
the list has index `k`: `x_k = b_k / U_kk`, then `b_j -= U_kj * x_k` for `j > k`. -/
def backSubT : Nat → List (List ℚ) → Vector → Vector
  | _, [], _ => []
  | k, r :: rs, b =>
    (b.headD 0 / r.getD k 0)
      :: backSubT (k + 1) rs (vsub b.tail (smul (b.headD 0 / r.getD k 0) (r.drop (k + 1))))

/-- Modelled from the spec: `backSubstituteUpper(b, U)`, the solution `x` of
`xᵀ * U = bᵀ`; the library asserts that `U` is square, and the size of `b`
has to be that of `U`. -/
def backSubstituteUpper (b : Vector) (U : Matrix) : Option Vector :=
  if U.rows = U.cols ∧ U.cols = b.length then some (backSubT 0 U.data b) else none

/-! ### Row permutation -/

/-- Modelled from the spec: the stored row permutation `permutation_` (its type is
declared in `GaussianConditional.h`, which is not part of the sources).  It is a
sequence of transpositions: entry `k` holds the row that is swapped with row `k`.
The empty sequence, the value a default-constructed conditional holds, is the
identity. -/
abbrev Transpositions := List Nat

/-- Swap two coefficients of a vector; both have to be in range. -/
def swapRows (v : Vector) (i j : Nat) : Option Vector :=
  if i < v.length ∧ j < v.length then some ((v.set i (v.getD j 0)).set j (v.getD i 0))
  else none

/-- Modelled from the spec: `permutation_ * v`, the transpositions applied in
order, the first of the list being that of row `k`. -/
def permute : Nat → Transpositions → Vector → Option Vector
  | _, [], v => some v
  | k, t :: ts, v =>
    if t = k then permute (k + 1) ts v
    else match swapRows v k t with
      | none => none
      | some w => permute (k + 1) ts w

/-- Modelled from the spec: `permutation_.transpose() * v`, the transpositions
applied in reverse order. -/
def permuteTranspose : Nat → Transpositions → Vector → Option Vector
  | _, [], v => some v
  | k, t :: ts, v =>
    match permuteTranspose (k + 1) ts v with
    | none => none
    | some w => if t = k then some w else swapRows w k t

/-! ### Assignments -/

/-- Modelled from the spec: an assignment (`VectorValues`, declared outside the
sources) maps every known variable to a vector; a variable that is not known
has no entry. -/
abbrev VectorValues := Index → Option Vector

/-- The assignment `x[j] = v`. -/
def VectorValues.set (x : VectorValues) (j : Index) (v : Vector) : VectorValues :=
  fun k => if k = j then some v else x k

/-- Status of a call that mutates an assignment in place. -/
inductive Status where
  | ok
  | failed
  deriving DecidableEq, Repr

/-- `v.segment(start, d)`; the segment has to lie inside `v`. -/
def segment (v : Vector) (start d : Nat) : Option Vector :=
  if start + d ≤ v.length then some ((v.drop start).take d) else none

/-- Read access `x.range(first, last)`: the entries of the keys, concatenated
(the loop the permuted solve inlines). A missing key is a failure. -/
def VectorValues.range (x : VectorValues) : List Index → Option Vector
  | [] => some []
  | j :: js =>
    match x j with
    | none => none
    | some v =>
      match VectorValues.range x js with
      | none => none
      | some rest => some (v ++ rest)

/-- Write access `x.range(first, last, v)`: `v` is split across the keys, each key
receiving as many scalars as its entry holds.  The result is the status together
with the assignment as the loop left it. -/
def VectorValues.setRange (x : VectorValues) : List Index → Nat → Vector → Status × VectorValues
  | [], _, _ => (Status.ok, x)
  | j :: js, start, v =>
    match x j with
    | none => (Status.failed, x)
    | some old =>
      match segment v start old.length with
      | none => (Status.failed, x)
      | some s => VectorValues.setRange (x.set j s) js (start + old.length) v

/-- Modelled from the spec: the view of an assignment under a variable
permutation (`Permuted<VectorValues>`, declared outside the sources): every
access to key `j` goes to the entry of `permutation_ j` of the container. -/
structure Permuted where
  permutation_ : Index → Index
  container_ : VectorValues

/-- Read access `x[j]` through the permutation. -/
def Permuted.view (x : Permuted) : VectorValues := fun j => x.container_ (x.permutation_ j)

/-- Write access `x[j] = v` through the permutation. -/
def Permuted.set (x : Permuted) (j : Index) (v : Vector) : Permuted :=
  { x with container_ := x.container_.set (x.permutation_ j) v }

/-! ### The conditional -/

/-- Gaussian conditional: the blocks of `[R S1 S2 ... d]` with the keys they
belong to.  `frontalDims` pairs each frontal key with the width of its column
block (`dim(frontal)`), `R` is the range of the frontal blocks (`get_R()`),
`parentBlocks` pairs each parent key with its block (`get_S(parent)`). -/
structure GaussianConditional where
  frontalDims : List (Index × Nat)
  R : Matrix
  parentBlocks : List (Index × Matrix)
  d : Vector
  sigmas_ : Vector
  permutation_ : Transpositions

/-- Frontal keys, `beginFrontals()` to `endFrontals()`. -/
def GaussianConditional.frontals (c : GaussianConditional) : List Index :=
  c.frontalDims.map Prod.fst

/-- Parent keys, `beginParents()` to `endParents()`. -/
def GaussianConditional.parents (c : GaussianConditional) : List Index :=
  c.parentBlocks.map Prod.fst

/-- Constructor `GaussianConditional(key, d, R, sigmas)`: no parent.  The
assertion `R.rows() <= R.cols()` and the size check of the block assignment
(the block has `d.size()` rows) are failures. -/
def GaussianConditional.ctor (key : Index) (d : Vector) (R : Matrix) (sigmas : Vector) :
    Option GaussianConditional :=
  if R.rows ≤ R.cols then
    if R.rows = d.length then
      some { frontalDims := [(key, R.cols)], R := R.triangularViewUpper, parentBlocks := [],
             d := d, sigmas_ := sigmas, permutation_ := [] }
    else none
  else none

/-- Constructor `GaussianConditional(key, d, R, name1, S, sigmas)`: one parent. -/
def GaussianConditional.ctor1 (key : Index) (d : Vector) (R : Matrix) (name1 : Index)
    (S : Matrix) (sigmas : Vector) : Option GaussianConditional :=
  if R.rows ≤ R.cols then
    if R.rows = d.length ∧ S.rows = d.length then
      some { frontalDims := [(key, R.cols)], R := R.triangularViewUpper,
             parentBlocks := [(name1, S)], d := d, sigmas_ := sigmas, permutation_ := [] }
    else none
  else none

/-- Constructor `GaussianConditional(key, d, R, name1, S, name2, T, sigmas)`: two
parents. -/
def GaussianConditional.ctor2 (key : Index) (d : Vector) (R : Matrix) (name1 : Index)
    (S : Matrix) (name2 : Index) (T : Matrix) (sigmas : Vector) : Option GaussianConditional :=
  if R.rows ≤ R.cols then
    if R.rows = d.length ∧ S.rows = d.length ∧ T.rows = d.length then
      some { frontalDims := [(key, R.cols)], R := R.triangularViewUpper,
             parentBlocks := [(name1, S), (name2, T)], d := d, sigmas_ := sigmas,
             permutation_ := [] }
    else none
  else none

/-- Constructor `GaussianConditional(key, d, R, parents, sigmas)`: a list of
parents with their blocks. -/
def GaussianConditional.ctorList (key : Index) (d : Vector) (R : Matrix)
    (parents : List (Index × Matrix)) (sigmas : Vector) : Option GaussianConditional :=
  if R.rows ≤ R.cols then
    if R.rows = d.length ∧ ∀ p ∈ parents, p.2.rows = d.length then
      some { frontalDims := [(key, R.cols)], R := R.triangularViewUpper,
             parentBlocks := parents, d := d, sigmas_ := sigmas, permutation_ := [] }
    else none
  else none

/-- The loop `rhs += -get_S(parent) * x[*parent]` over the parents.  A missing
parent entry and a size mismatch of the product or of the sum are failures. -/
def applyParents (x : VectorValues) : List (Index × Matrix) → Vector → Option Vector
  | [], rhs => some rhs
  | (j, S) :: ps, rhs =>
    match x j with
    | none => none
    | some xj =>
      if S.cols = xj.length ∧ S.rows = rhs.length then
        applyParents x ps (vadd rhs (S.neg.mulVec xj))
      else none

/-- In-place solve `solveInPlace(VectorValues& x)`: the right-hand side is read
from the frontal entries of `x`, the parents are applied, the triangular system
is solved and the solution is written to the frontal entries of `x`. -/
def GaussianConditional.solveInPlace (c : GaussianConditional) (x : VectorValues) :
    Status × VectorValues :=
  match x.range c.frontals with
  | none => (Status.failed, x)
  | some rhs0 =>
    match applyParents x c.parentBlocks rhs0 with
    | none => (Status.failed, x)
    | some rhs =>
      match c.R.solveUpper rhs with
      | none => (Status.failed, x)
      | some y =>
        match permuteTranspose 0 c.permutation_ y with
        | none => (Status.failed, x)
        | some soln => x.setRange c.frontals 0 soln

/-- The loop `x[*frontal] = soln.segment(solnStart, dim(frontal))` of the permuted
solve; the entry written has to exist and to have the size of the segment. -/
def Permuted.setFrontals (x : Permuted) : List (Index × Nat) → Nat → Vector → Status × Permuted
  | [], _, _ => (Status.ok, x)
  | (j, d) :: js, solnStart, soln =>
    match segment soln solnStart d with
    | none => (Status.failed, x)
    | some s =>
      match x.view j with
      | none => (Status.failed, x)
      | some old =>
        if old.length = d then Permuted.setFrontals (x.set j s) js (solnStart + d) soln
        else (Status.failed, x)

/-- In-place solve on a permuted assignment, `solveInPlace(Permuted<VectorValues>& x)`. -/
def GaussianConditional.solveInPlacePermuted (c : GaussianConditional) (x : Permuted) :
    Status × Permuted :=
  match VectorValues.range x.view c.frontals with
  | none => (Status.failed, x)
  | some rhs0 =>
    match applyParents x.view c.parentBlocks rhs0 with
    | none => (Status.failed, x)
    | some rhs =>
      match c.R.solveUpper rhs with
      | none => (Status.failed, x)
      | some y =>
        match permuteTranspose 0 c.permutation_ y with
        | none => (Status.failed, x)
        | some soln => x.setFrontals c.frontalDims 0 soln

/-- Modelled from the spec: `transposeMultiplyAdd(alpha, A, e, x)` of the matrix
library, `x += alpha * Aᵀ * e`; the sizes have to agree. -/
def transposeMultiplyAdd (alpha : ℚ) (A : Matrix) (e : Vector) (x : Vector) : Option Vector :=
  if A.rows = e.length ∧ A.cols = x.length then some (vadd x (smul alpha (A.tmulVec e)))
  else none

/-- The loop `transposeMultiplyAdd(-1.0, get_S(it), frontalVec, gy[*it])` over the
parents, each step writing the parent entry. -/
def updateParents (frontalVec : Vector) :
    List (Index × Matrix) → VectorValues → Status × VectorValues
  | [], gy => (Status.ok, gy)
  | (i, S) :: ps, gy =>
    match gy i with
    | none => (Status.failed, gy)
    | some gi =>
      match transposeMultiplyAdd (-1) S frontalVec gi with
      | none => (Status.failed, gy)
      | some gi1 => updateParents frontalVec ps (gy.set i gi1)

/-- Transposed in-place solve `solveTransposeInPlace(VectorValues& gy)`. -/
def GaussianConditional.solveTransposeInPlace (c : GaussianConditional) (gy : VectorValues) :
    Status × VectorValues :=
  match gy.range c.frontals with
  | none => (Status.failed, gy)
  | some frontalVec0 =>
    match backSubstituteUpper frontalVec0 c.R with
    | none => (Status.failed, gy)
    | some y =>
      match permute 0 c.permutation_ y with
      | none => (Status.failed, gy)
      | some frontalVec =>
        match updateParents frontalVec c.parentBlocks gy with
        | (Status.failed, gy1) => (Status.failed, gy1)
        | (Status.ok, gy1) => gy1.setRange c.frontals 0 frontalVec

/-- Modelled from the spec: a linear factor made of the triangular block, the
parent blocks and the right-hand side (`JacobianFactor`, declared outside the
sources). -/
structure JacobianFactor where
  keys : List Index
  R : Matrix
  S : List Matrix
  b : Vector
  sigmas : Vector

/-- Modelled from the spec: `toFactor()` builds `JacobianFactor(*this)`, whose
constructor is not part of the sources: a pure data transform that takes over
the keys, `R`, the parent blocks and `d`. -/
def GaussianConditional.toFactor (c : GaussianConditional) : JacobianFactor :=
  { keys := c.frontals ++ c.parents, R := c.R, S := c.parentBlocks.map Prod.snd, b := c.d,
    sigmas := c.sigmas_ }

/-! ### The chain scenario -/

/-- The 1 x 1 matrix `[[a]]`. -/
def Matrix.one1 (a : ℚ) : Matrix := ⟨1, 1, [[a]], by simp⟩

/-- The chain `x3`, `x2 | x3`, `x1 | x2` with `R = [[1]]`, `d = [3], [2], [1]` and
parent blocks `[[1]]`, solved in reverse elimination order from the assignment
`x`; the result is the status of the last solve and the entries of `x3`, `x2`,
`x1`. -/
def chainSolve (x : VectorValues) :
    Option (Status × Option Vector × Option Vector × Option Vector) :=
  match GaussianConditional.ctor 3 [3] (Matrix.one1 1) [1],
        GaussianConditional.ctor1 2 [2] (Matrix.one1 1) 3 (Matrix.one1 1) [1],
        GaussianConditional.ctor1 1 [1] (Matrix.one1 1) 2 (Matrix.one1 1) [1] with
  | some c3, some c2, some c1 =>
    let r3 := c3.solveInPlace x
    let r2 := c2.solveInPlace r3.2
    let r1 := c1.solveInPlace r2.2
    some (r1.1, r1.2 3, r1.2 2, r1.2 1)
  | _, _, _ => none

/-- Assignment holding `v1`, `v2`, `v3` at the keys 1, 2, 3 and nothing else. -/
def assign3 (v1 v2 v3 : Vector) : VectorValues :=
  fun k => if k = 1 then some v1 else if k = 2 then some v2 else if k = 3 then some v3 else none


/-- The conditional on key 3 with `R = [[1]]`, `d = [3]` and no parent. -/
def rootConditional : GaussianConditional :=
  { frontalDims := [(3, 1)], R := Matrix.one1 1, parentBlocks := [], d := [3], sigmas_ := [1],
    permutation_ := [] }

/-- Assignment holding `v` at key 3 and nothing else. -/
def assignAt3 (v : Vector) : VectorValues := fun k => if k = 3 then some v else none

/-- The 2 x 2 matrix `[[a, b], [c, e]]`. -/
def Matrix.of2 (a b c e : ℚ) : Matrix := ⟨2, 2, [[a, b], [c, e]], by simp⟩

/-- The 2 x 1 matrix `[[a], [b]]`. -/
def Matrix.col2 (a b : ℚ) : Matrix := ⟨2, 1, [[a], [b]], by simp⟩

/-- A conditional on key 1 of dimension 2 with `R = [[2, 1], [0, 4]]`, the parent 2
with block `[[1], [3]]` and `d = [5, 6]`. -/
def sampleConditional : GaussianConditional :=
  { frontalDims := [(1, 2)], R := Matrix.of2 2 1 0 4, parentBlocks := [(2, Matrix.col2 1 3)],
    d := [5, 6], sigmas_ := [1, 1], permutation_ := [] }

/-- Assignment holding `v1` at key 1, `v2` at key 2 and nothing else. -/
def assign2 (v1 v2 : Vector) : VectorValues :=
  fun k => if k = 1 then some v1 else if k = 2 then some v2 else none

/-- A conditional on key 1 of dimension 2 without parents, with
`R = [[1, 1], [0, 2]]` and the stored row permutation that swaps rows 0 and 1. -/
def swappedRoot : GaussianConditional :=
  { frontalDims := [(1, 2)], R := Matrix.of2 1 1 0 2, parentBlocks := [], d := [0, 0],
    sigmas_ := [1, 1], permutation_ := [1] }

/-- The conditional `swappedRoot` with the parent 2 and its block `[[1], [3]]`. -/
def swappedConditional : GaussianConditional :=
  { frontalDims := [(1, 2)], R := Matrix.of2 1 1 0 2, parentBlocks := [(2, Matrix.col2 1 3)],
    d := [0, 0], sigmas_ := [1, 1], permutation_ := [1] }

/-- Permuted assignment that exchanges the keys 1 and 2 over `assign2 v1 v2`. -/
def swapped12 (v1 v2 : Vector) : Permuted :=
  { permutation_ := fun k => if k = 1 then 2 else if k = 2 then 1 else k,
    container_ := assign2 v1 v2 }

/-! ### Predicates used in the statements -/

/-- Upper triangular: every coefficient below the diagonal is zero. -/
def Matrix.IsUpperTriangular (M : Matrix) : Prop := ∀ i j, j < i → M.entry i j = 0

/-- Every diagonal coefficient is nonzero; a square triangular matrix with this
property is invertible. -/
def Matrix.NonzeroDiagonal (M : Matrix) : Prop := ∀ i, i < M.rows → M.entry i i ≠ 0

/-- Rows `k, k + 1, ...` of an upper-triangular matrix with `n` columns and nonzero
diagonal: the row of index `k` has a nonzero entry in column `k`, the rows after
it have a zero there. -/
def UpperFrom (n : Nat) : Nat → List (List ℚ) → Prop
  | _, [] => True
  | k, r :: rs =>
    r.length = n ∧ k < n ∧ r.getD k 0 ≠ 0 ∧ (∀ r1 ∈ rs, r1.getD k 0 = 0) ∧ UpperFrom n (k + 1) rs

/-- The sum of `S_i * x[parent_i]` over the parents, a vector of size `n`. -/
def parentSum (n : Nat) (x : VectorValues) : List (Index × Matrix) → Vector
  | [] => List.replicate n 0
  | (j, S) :: ps => vadd (S.mulVec ((x j).getD [])) (parentSum n x ps)

/-- The transpositions act as the identity: entry `k` is `k`. -/
def Transpositions.IsIdentity (t : Transpositions) : Prop :=
  ∀ k (h : k < t.length), t.get ⟨k, h⟩ = k

/-- The transpositions fit a vector of size `n`: there are at most `n` of them and
each names a row below `n`. -/
def Transpositions.Valid (t : Transpositions) (n : Nat) : Prop :=
  t.length ≤ n ∧ ∀ i ∈ t, i < n

/-- The 3 x 2 matrix with rows `[1, 2]`, `[0, 3]`, `[0, 0]`. -/
def Matrix.tall32 : Matrix := ⟨3, 2, [[1, 2], [0, 3], [0, 0]], by simp⟩

/-! ### Comparison and scaling of conditionals -/

/-- The two vector comparisons `linear_dependent(a, b, tol)` and
`equal_with_abs_tol(a, b, tol)` of the vector library, whose source is not part
of the repository: `equals` is parametric in them. -/
structure VectorComparisons where
  linear_dependent : Vector → Vector → ℚ → Bool
  equal_with_abs_tol : Vector → Vector → ℚ → Bool

/-- Row access `M.row(i)`; a row index outside the matrix is a failure. -/
def Matrix.row (M : Matrix) (i : Nat) : Option Vector := M.data.get? i

/-- Outcome of the loop of `equals` over the parents for one row index. -/
inductive ParentScan where
  | outOfRange
  | keysDiffer
  | rows (row1 row2 : Vector)

/-- The loop of `equals` over the parents of `this` for the row index `i`: the
parent of `c` at the same position is compared by key (`return false` when the
keys differ), then the rows `i` of the two blocks are appended to the rows
collected so far. -/
def scanParents (i : Nat) :
    List (Index × Matrix) → List (Index × Matrix) → Vector → Vector → ParentScan
  | [], _, row1, row2 => ParentScan.rows row1 row2
  | _ :: _, [], _, _ => ParentScan.outOfRange
  | (k1, S1) :: ps1, (k2, S2) :: ps2, row1, row2 =>
    if k1 ≠ k2 then ParentScan.keysDiffer
    else
      match S1.row i, S2.row i with
      | some a, some b => scanParents i ps1 ps2 (row1 ++ a) (row2 ++ b)
      | _, _ => ParentScan.outOfRange

/-- The loop of `equals` over the row indices `i, i + 1, ...` (`n` of them are
left), followed by the comparison of the sigmas.  `none` is a failed access. -/
def equalsRows (lib : VectorComparisons) (c1 c2 : GaussianConditional) (tol : ℚ) :
    Nat → Nat → Option Bool
  | 0, _ => some (lib.equal_with_abs_tol c1.sigmas_ c2.sigmas_ tol)
  | n + 1, i =>
    match c1.R.row i, c2.R.row i with
    | some r1, some r2 =>
      match scanParents i c1.parentBlocks c2.parentBlocks r1 r2 with
      | ParentScan.outOfRange => none
      | ParentScan.keysDiffer => some false
      | ParentScan.rows row1 row2 =>
        if lib.linear_dependent row1 row2 tol then equalsRows lib c1 c2 tol n (i + 1)
        else some false
    | _, _ => none

/-- Comparison `c1.equals(c2, tol)`: the parent counts are compared first, then
the rows `0 .. rsd_.rows() - 1` of `c1`, then the sigmas. -/
def GaussianConditional.equals (lib : VectorComparisons) (c1 c2 : GaussianConditional)
    (tol : ℚ) : Option Bool :=
  if c1.parents.length ≠ c2.parents.length then some false
  else equalsRows lib c1 c2 tol c1.R.rows 0

/-- Default constructor `GaussianConditional()`: no key and an empty matrix. -/
def GaussianConditional.default : GaussianConditional :=
  { frontalDims := [], R := ⟨0, 0, [], by simp⟩, parentBlocks := [], d := [], sigmas_ := [],
    permutation_ := [] }

/-- In-place scaling `scaleFrontalsBySigma(VectorValues& gy)`.  The coefficient-wise
product `emul` requires vectors of the same size. -/
def GaussianConditional.scaleFrontalsBySigma (c : GaussianConditional) (gy : VectorValues) :
    Status × VectorValues :=
  match gy.range c.frontals with
  | none => (Status.failed, gy)
  | some frontalVec =>
    if frontalVec.length = c.sigmas_.length then
      gy.setRange c.frontals 0 (emul frontalVec c.sigmas_)
    else (Status.failed, gy)

/-- Row `i` of `[R | S_1 | S_2 | ...]`, the rows of the blocks concatenated. -/
def rowsOfParents (i : Nat) : List (Index × Matrix) → Vector
  | [] => []
  | (_, S) :: ps => S.data.getD i [] ++ rowsOfParents i ps

/-- Row `i` of `[R | S_1 | S_2 | ...]` of a conditional. -/
def GaussianConditional.concatRow (c : GaussianConditional) (i : Nat) : Vector :=
  c.R.data.getD i [] ++ rowsOfParents i c.parentBlocks

/-- The empty matrix with `n` columns. -/
def Matrix.zeroRows (n : Nat) : Matrix := ⟨0, n, [], by simp⟩

/-- A conditional without rows on key 1 with the single parent `j` of dimension 1,
as the one-parent constructor builds it from an empty `d`. -/
def emptyConditional (j : Index) : GaussianConditional :=
  { frontalDims := [(1, 0)], R := (Matrix.zeroRows 0).triangularViewUpper,
    parentBlocks := [(j, Matrix.zeroRows 1)], d := [], sigmas_ := [], permutation_ := [] }

/-- Elementwise comparison within a tolerance of two vectors of the same size. -/
def withinTol : Vector → Vector → ℚ → Bool
  | [], [], _ => true
  | a :: as, b :: bs, tol => decide (|a - b| ≤ tol) && withinTol as bs tol
  | _, _, _ => false

/-- A sample instance of the vector comparisons: both are the elementwise
comparison within the tolerance. -/
def sampleComparisons : VectorComparisons := ⟨withinTol, withinTol⟩

/-- A conditional on key 1 of dimension 2 without parents whose `R` is the wide
matrix `[[2, 1]]` with one row (one row and two columns pass construction). -/
def wideConditional : GaussianConditional :=
  { frontalDims := [(1, 2)], R := ⟨1, 2, [[2, 1]], by simp⟩, parentBlocks := [], d := [5],
    sigmas_ := [1], permutation_ := [] }

/-- A conditional on key 1 of dimension 2 without parents, with
`R = [[2, 1], [0, 4]]` and the sigmas `[2, 3]`. -/
def squareConditional : GaussianConditional :=
  { frontalDims := [(1, 2)], R := Matrix.of2 2 1 0 4, parentBlocks := [], d := [5, 6],
    sigmas_ := [2, 3], permutation_ := [] }

/-! ### Cliques and the Bayes tree (`cpp/BayesTree.h`) -/

/-- What the clique code uses of its template argument `Conditional`: the list of
parent keys, `conditional->parents()`. -/
class Conditional (C : Type) where
  parents : C → List String

/-- A clique of a Bayes tree: frontal keys `keys_`, conditionals `nodes_` and
separator keys `separator_`. -/
structure Front (C : Type) where
  keys_ : List String
  nodes_ : List C
  separator_ : List String

/-- Member `add(key, conditional)`: both are pushed to the front of their lists. -/
def Front.add {C : Type} (f : Front C) (key : String) (conditional : C) : Front C :=
  { f with keys_ := key :: f.keys_, nodes_ := conditional :: f.nodes_ }

/-- Constructor `Front(key, conditional)`: `add(key, conditional)` on the empty
lists, then `separator_ = conditional->parents()`. -/
def Front.ctor {C : Type} [Conditional C] (key : String) (conditional : C) : Front C :=
  { Front.add ⟨[], [], []⟩ key conditional with separator_ := Conditional.parents conditional }

/-- Member `equals(other, tol)`: the frontal keys are compared, nothing else. -/
def Front.equals {C : Type} (f other : Front C) (_tol : ℚ) : Bool :=
  decide (f.keys_ = other.keys_)

/-- Member `size()`: the number of frontal keys plus the number of separator keys. -/
def Front.size {C : Type} (f : Front C) : Nat := f.keys_.length + f.separator_.length

/-- A clique built by the constructor from the first pair and `add` for each
further pair, in the order of the list. -/
def Front.build {C : Type} [Conditional C] (first : String × C) (more : List (String × C)) :
    Front C :=
  more.foldl (fun f p => f.add p.1 p.2) (Front.ctor first.1 first.2)

/-- A node of the tree: a clique with tree connectivity.  The pointers `parent_`
and `children_` are positions in the node vector of the tree. -/
structure Node (C : Type) extends Front C where
  parent_ : Option Nat
  children_ : List Nat

/-- Constructor `Node(key, conditional)`: the clique of the pair, no parent and no
child. -/
def Node.ctor {C : Type} [Conditional C] (key : String) (conditional : C) : Node C :=
  { toFront := Front.ctor key conditional, parent_ := none, children_ := [] }

/-- Bayes tree: the vector of nodes `nodes_` and the map `nodeMap_` from keys to
positions in the vector. -/
structure BayesTree (C : Type) where
  nodes_ : List (Node C)
  nodeMap_ : String → Option Nat

/-- The empty tree, `BayesTree()`. -/
def BayesTree.empty {C : Type} : BayesTree C := ⟨[], fun _ => none⟩

/-- The map with `key` sent to `index`. -/
def BayesTree.mapInsert (m : String → Option Nat) (key : String) (index : Nat) :
    String → Option Nat :=
  fun k => if k = key then some index else m k

/-- Member `root()`, `*(nodes_[0])`: the clique at position 0.  There is none in an
empty tree. -/
def BayesTree.root {C : Type} (t : BayesTree C) : Option (Front C) :=
  (t.nodes_.get? 0).map Node.toFront

/-- Modelled from the spec: steps 2 to 4 of `insert(key, conditional)`, once the
key and the parents have been checked.  A conditional without parents becomes
the root of an empty tree and joins the root otherwise.  With parents, the node
that owns the first parent key is looked up; the conditional is merged into that
node with `add`, or a new node is appended and linked as a child of that node.
The test that decides between the two is left open by the spec and is the
parameter `absorbs`.  The key is recorded in the map with the position of its
node. -/
def BayesTree.place {C : Type} [Conditional C] (absorbs : Front C → C → Bool)
    (t : BayesTree C) (key : String) (conditional : C) : Status × BayesTree C :=
  match Conditional.parents conditional with
  | [] =>
    match t.nodes_ with
    | [] =>
      (Status.ok, { nodes_ := [Node.ctor key conditional],
                    nodeMap_ := BayesTree.mapInsert t.nodeMap_ key 0 })
    | root :: rest =>
      (Status.ok, { nodes_ := { root with toFront := root.toFront.add key conditional } :: rest,
                    nodeMap_ := BayesTree.mapInsert t.nodeMap_ key 0 })
  | parent :: _ =>
    match t.nodeMap_ parent with
    | none => (Status.failed, t)
    | some index =>
      match t.nodes_.get? index with
      | none => (Status.failed, t)
      | some clique =>
        if absorbs clique.toFront conditional then
          (Status.ok,
            { nodes_ := t.nodes_.set index
                { clique with toFront := clique.toFront.add key conditional },
              nodeMap_ := BayesTree.mapInsert t.nodeMap_ key index })
        else
          (Status.ok,
            { nodes_ := t.nodes_.set index
                  { clique with children_ := clique.children_ ++ [t.nodes_.length] }
                ++ [{ Node.ctor key conditional with parent_ := some index }],
              nodeMap_ := BayesTree.mapInsert t.nodeMap_ key t.nodes_.length })

/-- Modelled from the spec: `insert(key, conditional)`, which the header declares
and whose body is not part of the sources.  Keys are unique across the tree, so
a key that already has a node is not inserted again; every parent key of the
conditional has to be represented in the tree already, and a parent key without
a node is an error (the new key has no node yet, so it is no parent either).
Both leave the tree as it was.  Otherwise the conditional is placed by steps 2
to 4. -/
def BayesTree.insert {C : Type} [Conditional C] (absorbs : Front C → C → Bool)
    (t : BayesTree C) (key : String) (conditional : C) : Status × BayesTree C :=
  if (t.nodeMap_ key).isSome then (Status.failed, t)
  else if (Conditional.parents conditional).all (fun p => (t.nodeMap_ p).isSome) then
    t.place absorbs key conditional
  else (Status.failed, t)

/-- Modelled from the spec: the merge test named in its design notes, merge only
if the parent list of the conditional is the separator of the node that owns its
first parent key. -/
def absorbsEqualSeparator {C : Type} [Conditional C] (f : Front C) (conditional : C) : Bool :=
  decide (Conditional.parents conditional = f.separator_)

/-- A conditional that carries its parent keys only. -/
structure SymbolicConditional where
  parents : List String
  deriving DecidableEq, Repr

instance : Conditional SymbolicConditional := ⟨SymbolicConditional.parents⟩

/-- A conditional on key 1 of dimension 1 with `R = [[2]]`, the parent 2 with the
block `[[1, 1]]` and `d = [5]`. -/
def shortConditional : GaussianConditional :=
  { frontalDims := [(1, 1)], R := Matrix.one1 2, parentBlocks := [(2, ⟨1, 2, [[1, 1]], by simp⟩)],
    d := [5], sigmas_ := [1], permutation_ := [] }

/-! ### Printing of cliques -/

/-- The text `" k1 k2 ..."` that `print` writes for a list of keys: a blank before
each key. -/
def keysText : List String → String
  | [] => ""
  | k :: ks => " " ++ k ++ keysText ks

/-- Member `print(s)`: the line it writes, without the end of line: `s`, the
frontal keys, and for a non-empty separator `" :"` and the separator keys. -/
def Front.print {C : Type} (f : Front C) (s : String) : String :=
  s ++ keysText f.keys_ ++ (if f.separator_ = [] then "" else " :" ++ keysText f.separator_)

/-! ### The right-hand side and the stored blocks -/

/-- Member `rhs(VectorValues& x)`: the right-hand side is written to the frontal
entries of `x`.  The vector it writes is `rhs()`, declared in the header;
modelled from the spec as the stored right-hand side `d`. -/
def GaussianConditional.rhs (c : GaussianConditional) (x : VectorValues) :
    Status × VectorValues :=
  x.setRange c.frontals 0 c.d

/-- What a constructor stores for the input `R`, the parents with their blocks
and `d`: the upper triangle of `R` with zeros below the diagonal, the parents and
blocks as given, `d` as given. -/
def StoresUpperTriangle (c : GaussianConditional) (R : Matrix)
    (parents : List (Index × Matrix)) (d : Vector) : Prop :=
  (∀ i j, c.R.entry i j = if i ≤ j then R.entry i j else 0) ∧
    c.parentBlocks = parents ∧ c.d = d ∧ c.R.IsUpperTriangular

/-- The sample conditional with another frontal key and another right-hand side. -/
def sampleConditionalOther : GaussianConditional :=
  { sampleConditional with frontalDims := [(7, 2)], d := [0, 0] }

/-! ## Lemmas on assignments -/

theorem set_same (x : VectorValues) (j : Index) (v : Vector) : x.set j v j = some v := by
  simp [VectorValues.set]

theorem set_other (x : VectorValues) (j k : Index) (v : Vector) (h : k ≠ j) :
    x.set j v k = x k := by
  simp [VectorValues.set, h]

theorem segment_length (v s : Vector) (start d : Nat) (h : segment v start d = some s) :
    s.length = d := by
  unfold segment at h
  split at h
  · cases h
    simp only [List.length_take, List.length_drop]
    omega
  · cases h

theorem range_congr (x y : VectorValues) (js : List Index) (h : ∀ j ∈ js, x j = y j) :
    x.range js = y.range js := by
  induction js with
  | nil => rfl
  | cons j js ih =>
    have hj : x j = y j := h j (List.mem_cons_self _ _)
    have ht : x.range js = y.range js := ih (fun k hk => h k (List.mem_cons_of_mem _ hk))
    simp only [VectorValues.range, hj, ht]

/-- The write loop touches the listed keys only. -/
theorem setRange_frame (js : List Index) (x : VectorValues) (start : Nat) (v : Vector)
    (k : Index) (hk : k ∉ js) : (x.setRange js start v).2 k = x k := by
  induction js generalizing x start with
  | nil => rfl
  | cons j js ih =>
    have hkj : k ≠ j := fun h => hk (h ▸ List.mem_cons_self _ _)
    have hkt : k ∉ js := fun h => hk (List.mem_cons_of_mem _ h)
    simp only [VectorValues.setRange]
    cases hx : x j with
    | none => rfl
    | some old =>
      simp only []
      cases hs : segment v start old.length with
      | none => rfl
      | some s =>
        simp only []
        rw [ih (x.set j s) (start + old.length) hkt, set_other x j k s hkj]

/-- Writing a vector across keys that hold entries succeeds, and reading the keys
back gives the part of the vector that was written. -/
theorem setRange_range (js : List Index) (x : VectorValues) (start : Nat) (v xf : Vector)
    (hnd : js.Nodup) (hx : x.range js = some xf) (hlen : start + xf.length ≤ v.length) :
    (x.setRange js start v).1 = Status.ok ∧
      (x.setRange js start v).2.range js = some ((v.drop start).take xf.length) := by
  induction js generalizing x start xf with
  | nil =>
    simp only [VectorValues.range, Option.some.injEq] at hx
    subst hx
    simp [VectorValues.setRange, VectorValues.range]
  | cons j js ih =>
    have hj : j ∉ js := (List.nodup_cons.1 hnd).1
    have hnd1 : js.Nodup := (List.nodup_cons.1 hnd).2
    simp only [VectorValues.range] at hx
    cases hxj : x j with
    | none => simp [hxj] at hx
    | some old =>
      cases hxr : x.range js with
      | none => simp [hxj, hxr] at hx
      | some rest =>
        simp only [hxj, hxr, Option.some.injEq] at hx
        subst hx
        rw [List.length_append] at hlen
        have hseg : segment v start old.length = some ((v.drop start).take old.length) := by
          unfold segment
          rw [if_pos (by omega)]
        have hr1 : (x.set j ((v.drop start).take old.length)).range js = some rest := by
          rw [← hxr]
          exact range_congr _ _ js (fun k hk => set_other x j k _ (fun h => hj (h ▸ hk)))
        obtain ⟨h1, h2⟩ := ih (x.set j ((v.drop start).take old.length)) (start + old.length)
          rest hnd1 hr1 (by omega)
        simp only [VectorValues.setRange, hxj, hseg]
        refine ⟨h1, ?_⟩
        simp only [VectorValues.range]
        rw [setRange_frame js _ _ _ j hj, set_same, h2]
        simp only [Option.some.injEq, List.length_append]
        rw [List.take_add, List.drop_drop]

/-- The parent loop fails as soon as one parent has no entry. -/
theorem applyParents_missing (x : VectorValues) (ps : List (Index × Matrix)) (rhs : Vector)
    (h : ∃ p ∈ ps, x p.1 = none) : applyParents x ps rhs = none := by
  induction ps generalizing rhs with
  | nil => obtain ⟨p, hp, _⟩ := h; cases hp
  | cons q ps ih =>
    obtain ⟨j, S⟩ := q
    simp only [applyParents]
    cases hx : x j with
    | none => rfl
    | some xj =>
      simp only []
      split
      · apply ih
        obtain ⟨p, hp, hpx⟩ := h
        rcases List.mem_cons.1 hp with rfl | hp
        · simp [hx] at hpx
        · exact ⟨p, hp, hpx⟩
      · rfl

/-- The in-place solve touches the frontal keys only. -/
theorem solveInPlace_frame (c : GaussianConditional) (x : VectorValues) (k : Index)
    (hk : k ∉ c.frontals) : (c.solveInPlace x).2 k = x k := by
  unfold GaussianConditional.solveInPlace
  cases x.range c.frontals with
  | none => rfl
  | some rhs0 =>
    simp only []
    cases applyParents x c.parentBlocks rhs0 with
    | none => rfl
    | some rhs =>
      simp only []
      cases c.R.solveUpper rhs with
      | none => rfl
      | some y =>
        simp only []
        cases permuteTranspose 0 c.permutation_ y with
        | none => rfl
        | some soln => exact setRange_frame c.frontals x 0 soln k hk


/-! ## Lemmas on vectors and matrices -/

theorem dot_nil_left (b : Vector) : dot [] b = 0 := by
  simp [dot]

theorem dot_nil_right (a : Vector) : dot a [] = 0 := by
  cases a <;> simp [dot]

theorem dot_cons (a b : ℚ) (as bs : Vector) : dot (a :: as) (b :: bs) = a * b + dot as bs := by
  simp [dot]

theorem dot_comm (a b : Vector) : dot a b = dot b a := by
  induction a generalizing b with
  | nil => rw [dot_nil_left, dot_nil_right]
  | cons a as ih =>
    cases b with
    | nil => rw [dot_nil_left, dot_nil_right]
    | cons b bs => rw [dot_cons, dot_cons, ih bs, mul_comm]

theorem dot_replicate_zero (x : Vector) (m : Nat) : dot x (List.replicate m 0) = 0 := by
  induction x generalizing m with
  | nil => exact dot_nil_left _
  | cons a as ih =>
    cases m with
    | zero => exact dot_nil_right _
    | succ m => rw [List.replicate_succ, dot_cons, ih m]; ring

theorem dot_smul_right (x r : Vector) (y : ℚ) : dot x (smul y r) = y * dot x r := by
  induction x generalizing r with
  | nil => simp [dot_nil_left]
  | cons a as ih =>
    cases r with
    | nil => simp [smul, dot_nil_right]
    | cons b bs =>
      have h := ih bs
      simp only [smul, List.map_cons, dot_cons] at h ⊢
      rw [h]; ring

theorem dot_vadd_right (x a b : Vector) (h : a.length = b.length) :
    dot x (vadd a b) = dot x a + dot x b := by
  induction x generalizing a b with
  | nil => simp [dot_nil_left]
  | cons c cs ih =>
    cases a with
    | nil =>
      cases b with
      | nil => simp [vadd, dot_nil_right]
      | cons b bs => simp at h
    | cons a as =>
      cases b with
      | nil => simp at h
      | cons b bs =>
        have h1 : as.length = bs.length := by simpa using h
        have h2 := ih as bs h1
        simp only [vadd, List.zipWith_cons_cons, dot_cons] at h2 ⊢
        rw [h2]; ring

theorem vadd_length (a b : Vector) : (vadd a b).length = min a.length b.length := by
  simp [vadd]

theorem vsub_length (a b : Vector) : (vsub a b).length = min a.length b.length := by
  simp [vsub]

theorem smul_length (s : ℚ) (a : Vector) : (smul s a).length = a.length := by
  simp [smul]

theorem mulVecRows_length (rs : List (List ℚ)) (v : Vector) :
    (mulVecRows rs v).length = rs.length := by
  simp [mulVecRows]

theorem mulVec_length (M : Matrix) (v : Vector) : (M.mulVec v).length = M.rows := by
  rw [Matrix.mulVec, mulVecRows_length, M.wf.1]

theorem tmulVecRows_length (m : Nat) (rs : List (List ℚ)) (ys : Vector)
    (h : ∀ r ∈ rs, r.length = m) : (tmulVecRows m rs ys).length = m := by
  induction rs generalizing ys with
  | nil => simp [tmulVecRows]
  | cons r rs ih =>
    cases ys with
    | nil => simp [tmulVecRows]
    | cons y ys =>
      simp only [tmulVecRows, vadd_length, smul_length]
      rw [h r (List.mem_cons_self _ _), ih ys (fun r1 h1 => h r1 (List.mem_cons_of_mem _ h1))]
      simp

theorem tmulVec_length (M : Matrix) (y : Vector) : (M.tmulVec y).length = M.cols :=
  tmulVecRows_length M.cols M.data y M.wf.2

/-- The matrix-vector product and its transpose are adjoint for the inner product. -/
theorem dot_mulVecRows (m : Nat) (rs : List (List ℚ)) (x ys : Vector)
    (h : ∀ r ∈ rs, r.length = m) :
    dot (mulVecRows rs x) ys = dot x (tmulVecRows m rs ys) := by
  induction rs generalizing ys with
  | nil => simp [mulVecRows, tmulVecRows, dot_nil_left, dot_replicate_zero]
  | cons r rs ih =>
    cases ys with
    | nil => simp [tmulVecRows, dot_nil_right, dot_replicate_zero]
    | cons y ys =>
      have hr : r.length = m := h r (List.mem_cons_self _ _)
      have ht : ∀ r1 ∈ rs, r1.length = m := fun r1 h1 => h r1 (List.mem_cons_of_mem _ h1)
      have h1 := ih ys ht
      simp only [mulVecRows, List.map_cons, dot_cons, tmulVecRows] at h1 ⊢
      rw [dot_vadd_right _ _ _ (by rw [smul_length, tmulVecRows_length m rs ys ht, hr]),
        dot_smul_right, h1, dot_comm x r]
      ring

theorem dot_map_neg (r v : Vector) : dot (r.map (fun t => -t)) v = -dot r v := by
  induction r generalizing v with
  | nil => simp [dot_nil_left]
  | cons a as ih =>
    cases v with
    | nil => simp [dot_nil_right]
    | cons b bs => simp only [List.map_cons, dot_cons, ih bs]; ring

theorem mulVec_neg (M : Matrix) (v : Vector) :
    M.neg.mulVec v = (M.mulVec v).map (fun t => -t) := by
  simp only [Matrix.mulVec, Matrix.neg, mulVecRows, List.map_map]
  apply List.map_congr_left
  intro r _
  simp [dot_map_neg]

/-! ## The triangular solves solve the systems -/

theorem upperFrom_row_length (n k : Nat) (rs : List (List ℚ)) (h : UpperFrom n k rs) :
    ∀ r ∈ rs, r.length = n := by
  induction rs generalizing k with
  | nil => intro r hr; cases hr
  | cons r0 rs ih =>
    obtain ⟨h0, _, _, _, ht⟩ := h
    intro r hr
    rcases List.mem_cons.1 hr with rfl | hr
    · exact h0
    · exact ih (k + 1) ht r hr

theorem drop_eq_getD_cons (r : List ℚ) (k : Nat) (h : k < r.length) :
    r.drop k = r.getD k 0 :: r.drop (k + 1) := by
  rw [List.drop_eq_getElem_cons h]
  congr 1
  simp [List.getD, List.getElem?_eq_getElem h]

theorem backSub_length (k : Nat) (rs : List (List ℚ)) (b : Vector) :
    (backSub k rs b).length = rs.length := by
  induction rs generalizing k b with
  | nil => rfl
  | cons r rs ih => simp [backSub, ih]

/-- Back-substitution solves the rows it is given: with rows `k, k + 1, ...` of an
upper-triangular matrix with nonzero diagonal, the row of index `i`, read from
column `k` on, has inner product `b_i` with the solution. -/
theorem backSub_spec (n k : Nat) (rs : List (List ℚ)) (b : Vector)
    (hU : UpperFrom n k rs) (hb : b.length = rs.length) :
    rs.map (fun r => dot (r.drop k) (backSub k rs b)) = b := by
  induction rs generalizing k b with
  | nil =>
    cases b with
    | nil => rfl
    | cons _ _ => simp at hb
  | cons r rs ih =>
    cases b with
    | nil => simp at hb
    | cons b0 bt =>
      obtain ⟨hr, hk, hd, hz, ht⟩ := hU
      have hbt : bt.length = rs.length := by simpa using hb
      have hih := ih (k + 1) bt ht hbt
      simp only [backSub, List.map_cons, List.headD_cons, List.tail_cons]
      congr 1
      · rw [drop_eq_getD_cons r k (by omega), dot_cons]
        generalize r.getD k 0 = a at hd
        field_simp
      · rw [← hih]
        apply List.map_congr_left
        intro r1 hr1
        have hl : r1.length = n := upperFrom_row_length n (k + 1) rs ht r1 hr1
        rw [drop_eq_getD_cons r1 k (by omega), dot_cons, hz r1 hr1, hih]
        ring

theorem tmulVecRows_zero_cons (m : Nat) (rs : List (List ℚ)) (ys : Vector) :
    tmulVecRows (m + 1) (rs.map (fun r => 0 :: r)) ys = 0 :: tmulVecRows m rs ys := by
  induction rs generalizing ys with
  | nil => simp [tmulVecRows, List.replicate_succ]
  | cons r rs ih =>
    cases ys with
    | nil => simp [tmulVecRows, List.replicate_succ]
    | cons y ys => simp [tmulVecRows, ih, vadd, smul]

theorem vadd_vsub_cancel (a b : Vector) (h : b.length = a.length) :
    vadd a (vsub b a) = b := by
  induction a generalizing b with
  | nil =>
    cases b with
    | nil => rfl
    | cons _ _ => simp at h
  | cons a as ih =>
    cases b with
    | nil => simp at h
    | cons b bs =>
      have h1 : bs.length = as.length := by simpa using h
      have h2 := ih bs h1
      simp only [vadd, vsub, List.zipWith_cons_cons] at h2 ⊢
      rw [h2]
      congr 1
      ring

theorem backSubT_length (k : Nat) (rs : List (List ℚ)) (b : Vector) :
    (backSubT k rs b).length = rs.length := by
  induction rs generalizing k b with
  | nil => rfl
  | cons r rs ih => simp [backSubT, ih]

/-- The transposed substitution solves the transposed system: with rows
`k, k + 1, ...` of an upper-triangular matrix with nonzero diagonal, read from
column `k` on, the combination of the rows with the solution as weights is `b`. -/
theorem backSubT_spec (n k : Nat) (rs : List (List ℚ)) (b : Vector)
    (hU : UpperFrom n k rs) (hn : k + rs.length = n) (hb : b.length = rs.length) :
    tmulVecRows rs.length (rs.map (fun r => r.drop k)) (backSubT k rs b) = b := by
  induction rs generalizing k b with
  | nil =>
    cases b with
    | nil => rfl
    | cons _ _ => simp at hb
  | cons r rs ih =>
    cases b with
    | nil => simp at hb
    | cons b0 bt =>
      obtain ⟨hr, hk, hd, hz, ht⟩ := hU
      have hbt : bt.length = rs.length := by simpa using hb
      have hn1 : k + 1 + rs.length = n := by simp only [List.length_cons] at hn; omega
      have hdl : (r.drop (k + 1)).length = rs.length := by
        rw [List.length_drop, hr]; omega
      have hb1 : (vsub bt (smul (b0 / r.getD k 0) (r.drop (k + 1)))).length = rs.length := by
        rw [vsub_length, smul_length, hdl, hbt]; simp
      have hih := ih (k + 1) _ ht hn1 hb1
      have hrows : rs.map (fun r1 => r1.drop k)
          = (rs.map (fun r1 => r1.drop (k + 1))).map (fun r1 => 0 :: r1) := by
        rw [List.map_map]
        apply List.map_congr_left
        intro r1 hr1
        have hl : r1.length = n := upperFrom_row_length n (k + 1) rs ht r1 hr1
        simp only [Function.comp]
        rw [drop_eq_getD_cons r1 k (by omega), hz r1 hr1]
      simp only [backSubT, List.map_cons, List.headD_cons, List.tail_cons, List.length_cons,
        tmulVecRows]
      rw [hrows, tmulVecRows_zero_cons]
      have hlen2 : (rs.map (fun r1 => r1.drop (k + 1))).length = rs.length := by simp
      rw [← hlen2] at hih
      simp only [List.length_map] at hih
      rw [hih, drop_eq_getD_cons r k (by omega)]
      generalize r.getD k 0 = a at hd
      simp only [smul, List.map_cons, vadd, List.zipWith_cons_cons]
      congr 1
      · field_simp
      · have := vadd_vsub_cancel (smul (b0 / a) (r.drop (k + 1))) bt
          (by rw [smul_length, hdl, hbt])
        simpa [vadd, vsub, smul] using this

/-- The rows of a square upper-triangular matrix with nonzero diagonal. -/
theorem upperFrom_of_matrix (M : Matrix) (n : Nat) (hr : M.rows = n) (hc : M.cols = n)
    (hU : M.IsUpperTriangular) (hD : M.NonzeroDiagonal) : UpperFrom n 0 M.data := by
  have key : ∀ (rs : List (List ℚ)) (k : Nat), k + rs.length = n →
      (∀ r ∈ rs, r.length = n) →
      (∀ i, i < rs.length → rs.getD i [] = M.data.getD (k + i) []) → UpperFrom n k rs := by
    intro rs
    induction rs with
    | nil => intro k _ _ _; trivial
    | cons r rs ih =>
      intro k hk hl hs
      simp only [List.length_cons] at hk
      have h0 : r = M.data.getD k [] := by
        have := hs 0 (by simp)
        simpa using this
      refine ⟨hl r (List.mem_cons_self _ _), by omega, ?_, ?_, ?_⟩
      · have := hD k (by omega)
        rw [Matrix.entry, ← h0] at this
        exact this
      · intro r1 hr1
        obtain ⟨i, hi, rfl⟩ := List.getElem_of_mem hr1
        have h1 := hs (i + 1) (by simpa using hi)
        have h2 := hU (k + (i + 1)) k (by omega)
        rw [Matrix.entry, ← h1] at h2
        simpa [List.getD, List.getElem?_eq_getElem hi] using h2
      · apply ih (k + 1) (by omega) (fun r1 h1 => hl r1 (List.mem_cons_of_mem _ h1))
        intro i hi
        have h1 := hs (i + 1) (by simpa using hi)
        have h2 : k + 1 + i = k + (i + 1) := by omega
        rw [h2, ← h1]
        simp [List.getD]
  exact key M.data 0 (by rw [M.wf.1, hr]; omega) (fun r h => by rw [M.wf.2 r h, hc])
    (fun i _ => by simp)

/-! ## The in-place solve -/

theorem vsub_vadd_neg (a b c : Vector) :
    vsub (vadd a (b.map (fun t => -t))) c = vsub a (vadd b c) := by
  induction a generalizing b c with
  | nil => simp [vadd, vsub]
  | cons a0 as ih =>
    cases b with
    | nil => simp [vadd, vsub]
    | cons b0 bs =>
      cases c with
      | nil => simp [vadd, vsub]
      | cons c0 cs =>
        have h := ih bs cs
        simp only [vadd, vsub, List.map_cons, List.zipWith_cons_cons] at h ⊢
        rw [h]
        congr 1
        ring

theorem vsub_replicate_zero (a : Vector) (n : Nat) (h : a.length = n) :
    vsub a (List.replicate n 0) = a := by
  induction a generalizing n with
  | nil => simp [vsub]
  | cons a0 as ih =>
    cases n with
    | zero => simp at h
    | succ n =>
      have h1 : as.length = n := by simpa using h
      have h2 := ih n h1
      simp only [vsub, List.replicate_succ, List.zipWith_cons_cons] at h2 ⊢
      rw [h2]
      simp

/-- With all parents present in the right sizes, the parent loop computes
`rhs - sum_i S_i * x[parent_i]`. -/
theorem applyParents_spec (n : Nat) (x : VectorValues) (ps : List (Index × Matrix))
    (rhs : Vector) (hlen : rhs.length = n)
    (hpar : ∀ p ∈ ps, p.2.rows = n ∧ ∃ v, x p.1 = some v ∧ v.length = p.2.cols) :
    applyParents x ps rhs = some (vsub rhs (parentSum n x ps)) := by
  induction ps generalizing rhs with
  | nil => simp [applyParents, parentSum, vsub_replicate_zero rhs n hlen]
  | cons q ps ih =>
    obtain ⟨j, S⟩ := q
    obtain ⟨hrows, v, hv, hvl⟩ := hpar (j, S) (List.mem_cons_self _ _)
    simp only at hrows hv hvl
    have hl1 : (vadd rhs (S.neg.mulVec v)).length = n := by
      rw [vadd_length, mulVec_neg, List.length_map, mulVec_length, hlen, hrows]
      simp
    simp only [applyParents, hv, hvl, hrows, hlen, and_self, if_true, parentSum, Option.getD_some]
    rw [ih _ hl1 (fun p hp => hpar p (List.mem_cons_of_mem _ hp)), mulVec_neg, vsub_vadd_neg]

theorem applyParents_length (x : VectorValues) (ps : List (Index × Matrix)) (rhs r : Vector)
    (h : applyParents x ps rhs = some r) : r.length = rhs.length := by
  induction ps generalizing rhs with
  | nil =>
    simp only [applyParents, Option.some.injEq] at h
    rw [h]
  | cons q ps ih =>
    obtain ⟨j, S⟩ := q
    simp only [applyParents] at h
    cases hx : x j with
    | none => simp [hx] at h
    | some xj =>
      simp only [hx] at h
      split at h
      · rename_i hc
        rw [ih _ h, vadd_length, mulVec_neg, List.length_map, mulVec_length, hc.2]
        simp
      · cases h

theorem permuteTranspose_identity (t : Transpositions) (k : Nat) (v : Vector)
    (h : ∀ i (hi : i < t.length), t.get ⟨i, hi⟩ = k + i) : permuteTranspose k t v = some v := by
  induction t generalizing k with
  | nil => rfl
  | cons a t ih =>
    have h0 : a = k := by simpa using h 0 (by simp)
    have ht : ∀ i (hi : i < t.length), t.get ⟨i, hi⟩ = k + 1 + i := by
      intro i hi
      have := h (i + 1) (by simpa using hi)
      simp only [List.get_eq_getElem, List.getElem_cons_succ] at this ⊢
      omega
    simp only [permuteTranspose, ih (k + 1) ht, h0, if_true]

theorem permute_identity (t : Transpositions) (k : Nat) (v : Vector)
    (h : ∀ i (hi : i < t.length), t.get ⟨i, hi⟩ = k + i) : permute k t v = some v := by
  induction t generalizing k with
  | nil => rfl
  | cons a t ih =>
    have h0 : a = k := by simpa using h 0 (by simp)
    have ht : ∀ i (hi : i < t.length), t.get ⟨i, hi⟩ = k + 1 + i := by
      intro i hi
      have := h (i + 1) (by simpa using hi)
      simp only [List.get_eq_getElem, List.getElem_cons_succ] at this ⊢
      omega
    simp only [permute, ih (k + 1) ht, h0, if_true]

theorem solveUpper_spec (R : Matrix) (b : Vector) (hsq : R.rows = R.cols)
    (hU : R.IsUpperTriangular) (hD : R.NonzeroDiagonal) (hb : b.length = R.rows) :
    R.solveUpper b = some (backSub 0 R.data b) ∧ (backSub 0 R.data b).length = R.rows ∧
      R.mulVec (backSub 0 R.data b) = b := by
  refine ⟨?_, ?_, ?_⟩
  · unfold Matrix.solveUpper
    rw [if_pos ⟨hsq, by omega⟩]
  · rw [backSub_length, R.wf.1]
  · have h := backSub_spec R.rows 0 R.data b (upperFrom_of_matrix R R.rows rfl hsq.symm hU hD)
      (by rw [hb, R.wf.1])
    simpa [Matrix.mulVec, mulVecRows] using h

/-- C1 (as amended): for a conditional with a square invertible upper-triangular
`R`, identity row permutation and distinct frontal keys, and an assignment `x`
holding all frontal and parent keys in the sizes of the blocks, `solveInPlace`
succeeds and the frontal segment it leaves satisfies
`R * x_f = b - sum_i S_i * x[parent_i]`, where `b` is the frontal segment that `x`
held before the call. -/
theorem solveInPlace_solves_system (c : GaussianConditional) (x : VectorValues) (b : Vector)
    (hsq : c.R.rows = c.R.cols) (hU : c.R.IsUpperTriangular) (hD : c.R.NonzeroDiagonal)
    (hP : c.permutation_.IsIdentity) (hnd : c.frontals.Nodup)
    (hb : x.range c.frontals = some b) (hlen : b.length = c.R.rows)
    (hpar : ∀ p ∈ c.parentBlocks,
      p.2.rows = c.R.rows ∧ ∃ v, x p.1 = some v ∧ v.length = p.2.cols) :
    (c.solveInPlace x).1 = Status.ok ∧
      ∃ xf, (c.solveInPlace x).2.range c.frontals = some xf ∧
        c.R.mulVec xf = vsub b (parentSum c.R.rows x c.parentBlocks) := by
  have hrhs := applyParents_spec c.R.rows x c.parentBlocks b hlen hpar
  have hrl : (vsub b (parentSum c.R.rows x c.parentBlocks)).length = c.R.rows := by
    rw [applyParents_length x c.parentBlocks b _ hrhs, hlen]
  obtain ⟨hs1, hs2, hs3⟩ := solveUpper_spec c.R _ hsq hU hD hrl
  have hperm := permuteTranspose_identity c.permutation_ 0
    (backSub 0 c.R.data (vsub b (parentSum c.R.rows x c.parentBlocks)))
    (fun i hi => by rw [hP i hi, Nat.zero_add])
  obtain ⟨hw1, hw2⟩ := setRange_range c.frontals x 0
    (backSub 0 c.R.data (vsub b (parentSum c.R.rows x c.parentBlocks))) b hnd hb
    (by rw [hs2, hlen, Nat.zero_add])
  have hrun : c.solveInPlace x = x.setRange c.frontals 0
      (backSub 0 c.R.data (vsub b (parentSum c.R.rows x c.parentBlocks))) := by
    simp only [GaussianConditional.solveInPlace, hb, hrhs, hs1, hperm]
  rw [hrun]
  refine ⟨hw1, _, hw2, ?_⟩
  rw [List.drop_zero, hlen, List.take_of_length_le (Nat.le_of_eq hs2), hs3]

theorem of2_upper (a b e : ℚ) : (Matrix.of2 a b 0 e).IsUpperTriangular := by
  intro i j h
  rcases i with _ | _ | i
  · omega
  · have hj : j = 0 := by omega
    subst hj
    simp [Matrix.entry, Matrix.of2]
  · simp [Matrix.entry, Matrix.of2]

theorem of2_diagonal (a b c e : ℚ) (ha : a ≠ 0) (he : e ≠ 0) :
    (Matrix.of2 a b c e).NonzeroDiagonal := by
  intro i h
  have h2 : i < 2 := h
  rcases i with _ | _ | i
  · simpa [Matrix.entry, Matrix.of2] using ha
  · simpa [Matrix.entry, Matrix.of2] using he
  · omega

theorem one1_upper (a : ℚ) : (Matrix.one1 a).IsUpperTriangular := by
  intro i j h
  rcases i with _ | i
  · omega
  · simp [Matrix.entry, Matrix.one1]

theorem one1_diagonal (a : ℚ) (ha : a ≠ 0) : (Matrix.one1 a).NonzeroDiagonal := by
  intro i h
  have h1 : i < 1 := h
  have h0 : i = 0 := by omega
  subst h0
  simpa [Matrix.entry, Matrix.one1] using ha

theorem nil_isIdentity : Transpositions.IsIdentity [] := by
  intro k h
  simp at h

/-- Witness of C1 (as amended): the sample conditional on the assignment
`x1 = [5, 8]`, `x2 = [1]`. -/
theorem solveInPlace_solves_system_witness :
    (sampleConditional.solveInPlace (assign2 [5, 8] [1])).1 = Status.ok ∧
      ∃ xf, (sampleConditional.solveInPlace (assign2 [5, 8] [1])).2.range
          sampleConditional.frontals = some xf ∧
        sampleConditional.R.mulVec xf
          = vsub [5, 8] (parentSum sampleConditional.R.rows (assign2 [5, 8] [1])
              sampleConditional.parentBlocks) :=
  solveInPlace_solves_system sampleConditional (assign2 [5, 8] [1]) [5, 8] rfl
    (of2_upper 2 1 4) (of2_diagonal 2 1 0 4 (by norm_num) (by norm_num)) nil_isIdentity
    (by simp [GaussianConditional.frontals, sampleConditional])
    (by simp [GaussianConditional.frontals, sampleConditional, VectorValues.range, assign2])
    rfl
    (by
      intro p hp
      have hp1 : p = (2, Matrix.col2 1 3) := by simpa [sampleConditional] using hp
      subst hp1
      exact ⟨rfl, [1], rfl, rfl⟩)

/-- C1 (as stated) fails: the conditional on key 3 with `R = [[1]]` and stored
`d = [3]` meets every assumption on the assignment `x3 = [0]`, and after
`solveInPlace` the frontal segment is `[0]`, so `R * x_f = [0]` and not the stored
`d = [3]`. -/
theorem solveInPlace_ignores_stored_rhs :
    (rootConditional.R.rows = rootConditional.R.cols ∧ rootConditional.R.IsUpperTriangular ∧
      rootConditional.R.NonzeroDiagonal ∧ rootConditional.permutation_.IsIdentity ∧
      rootConditional.frontals.Nodup ∧
      (assignAt3 [0]).range rootConditional.frontals = some [0] ∧
      (∀ p ∈ rootConditional.parentBlocks, p.2.rows = rootConditional.R.rows ∧
        ∃ v, assignAt3 [0] p.1 = some v ∧ v.length = p.2.cols)) ∧
    (rootConditional.solveInPlace (assignAt3 [0])).1 = Status.ok ∧
    (rootConditional.solveInPlace (assignAt3 [0])).2.range rootConditional.frontals
      = some [0] ∧
    ¬ ∃ xf, (rootConditional.solveInPlace (assignAt3 [0])).2.range rootConditional.frontals
        = some xf ∧
      rootConditional.R.mulVec xf
        = vsub rootConditional.d
            (parentSum rootConditional.R.rows (assignAt3 [0]) rootConditional.parentBlocks) := by
  have hrun : (rootConditional.solveInPlace (assignAt3 [0])).2.range rootConditional.frontals
      = some [0] := by
    norm_num [rootConditional, GaussianConditional.solveInPlace, GaussianConditional.frontals,
      VectorValues.range, assignAt3, applyParents, Matrix.solveUpper, Matrix.one1, backSub, dot,
      permuteTranspose, VectorValues.setRange, segment, VectorValues.set]
  refine ⟨⟨rfl, one1_upper 1, one1_diagonal 1 (by norm_num), nil_isIdentity, ?_, ?_, ?_⟩,
    ?_, hrun, ?_⟩
  · simp [GaussianConditional.frontals, rootConditional]
  · simp [GaussianConditional.frontals, rootConditional, VectorValues.range, assignAt3]
  · intro p hp
    simp [rootConditional] at hp
  · norm_num [rootConditional, GaussianConditional.solveInPlace, GaussianConditional.frontals,
      VectorValues.range, assignAt3, applyParents, Matrix.solveUpper, Matrix.one1, backSub, dot,
      permuteTranspose, VectorValues.setRange, segment, VectorValues.set]
  · rintro ⟨xf, h1, h2⟩
    rw [hrun] at h1
    cases h1
    norm_num [rootConditional, Matrix.mulVec, mulVecRows, Matrix.one1, dot, vsub, parentSum]
      at h2

/-- C2 (as amended): the chain `x3`, `x2 | x3`, `x1 | x2`, solved in reverse
elimination order from the assignment that holds the right-hand sides
`x3 = 3`, `x2 = 2`, `x1 = 1`, yields `x3 = 3`, `x2 = -1`, `x1 = 2`. -/
theorem chainSolve_from_rhs :
    chainSolve (assign3 [1] [2] [3]) = some (Status.ok, some [3], some [-1], some [2]) := by
  norm_num [chainSolve, GaussianConditional.ctor, GaussianConditional.ctor1, Matrix.one1, assign3,
    GaussianConditional.solveInPlace, VectorValues.range, GaussianConditional.frontals,
    applyParents, Matrix.solveUpper, Matrix.triangularViewUpper, upperRows, backSub, dot,
    permuteTranspose, VectorValues.setRange, segment, VectorValues.set, Matrix.neg,
    Matrix.mulVec, mulVecRows, vadd]

/-- C2 (as stated) fails: from the assignment whose three entries are zero the
three solves succeed and leave `x3 = 0`, `x2 = 0`, `x1 = 0`, not `3`, `-1`, `2`. -/
theorem chainSolve_from_zero :
    chainSolve (assign3 [0] [0] [0]) = some (Status.ok, some [0], some [0], some [0]) ∧
      chainSolve (assign3 [0] [0] [0]) ≠ some (Status.ok, some [3], some [-1], some [2]) := by
  have h : chainSolve (assign3 [0] [0] [0]) = some (Status.ok, some [0], some [0], some [0]) := by
    norm_num [chainSolve, GaussianConditional.ctor, GaussianConditional.ctor1, Matrix.one1,
      assign3, GaussianConditional.solveInPlace, VectorValues.range,
      GaussianConditional.frontals, applyParents, Matrix.solveUpper, Matrix.triangularViewUpper,
      upperRows, backSub, dot, permuteTranspose, VectorValues.setRange, segment,
      VectorValues.set, Matrix.neg, Matrix.mulVec, mulVecRows, vadd]
  refine ⟨h, ?_⟩
  rw [h]
  norm_num

/-- C3: for a conditional whose parent keys are disjoint from its frontal keys and
an assignment holding all its keys, `solveInPlace` leaves every parent entry and
every entry of a key that is neither frontal nor parent as it was. -/
theorem solveInPlace_changes_frontals_only (c : GaussianConditional) (x : VectorValues)
    (hdisj : ∀ k ∈ c.parents, k ∉ c.frontals)
    (_hkeys : ∀ k, k ∈ c.frontals ∨ k ∈ c.parents → (x k).isSome) :
    (∀ k ∈ c.parents, (c.solveInPlace x).2 k = x k) ∧
      (∀ k, k ∉ c.frontals → k ∉ c.parents → (c.solveInPlace x).2 k = x k) :=
  ⟨fun k hk => solveInPlace_frame c x k (hdisj k hk),
    fun k hk _ => solveInPlace_frame c x k hk⟩

/-- Witness of C3: the sample conditional on the assignment `x1 = [5, 8]`,
`x2 = [1]`. -/
theorem solveInPlace_changes_frontals_only_witness :
    (∀ k ∈ sampleConditional.parents,
        (sampleConditional.solveInPlace (assign2 [5, 8] [1])).2 k = assign2 [5, 8] [1] k) ∧
      (∀ k, k ∉ sampleConditional.frontals → k ∉ sampleConditional.parents →
        (sampleConditional.solveInPlace (assign2 [5, 8] [1])).2 k = assign2 [5, 8] [1] k) :=
  solveInPlace_changes_frontals_only sampleConditional (assign2 [5, 8] [1])
    (by simp [GaussianConditional.parents, GaussianConditional.frontals, sampleConditional])
    (by
      intro k hk
      simp only [GaussianConditional.parents, GaussianConditional.frontals, sampleConditional,
        List.map_cons, List.map_nil, List.mem_singleton] at hk
      rcases hk with rfl | rfl <;> simp [assign2])

/-- C4: when some parent key has no entry in the assignment, `solveInPlace` fails
and the assignment is as it was before the call. -/
theorem solveInPlace_missing_parent (c : GaussianConditional) (x : VectorValues)
    (h : ∃ k ∈ c.parents, x k = none) : c.solveInPlace x = (Status.failed, x) := by
  have hp : ∃ p ∈ c.parentBlocks, x p.1 = none := by
    obtain ⟨k, hk, hx⟩ := h
    obtain ⟨p, hp, rfl⟩ := List.mem_map.1 hk
    exact ⟨p, hp, hx⟩
  unfold GaussianConditional.solveInPlace
  cases x.range c.frontals with
  | none => rfl
  | some rhs0 => simp only [applyParents_missing x c.parentBlocks rhs0 hp]

/-- Witness of C4: the sample conditional on an assignment without its parent 2. -/
theorem solveInPlace_missing_parent_witness :
    sampleConditional.solveInPlace (assignAt3 [0]) = (Status.failed, assignAt3 [0]) :=
  solveInPlace_missing_parent sampleConditional (assignAt3 [0])
    ⟨2, by simp [GaussianConditional.parents, sampleConditional], by simp [assignAt3]⟩

/-- C9: a matrix `R` with more rows than columns is rejected by each of the four
constructors: none of them produces a conditional. -/
theorem ctor_rejects_tall (key name1 name2 : Index) (d sigmas : Vector) (R S T : Matrix)
    (parents : List (Index × Matrix)) (h : R.cols < R.rows) :
    GaussianConditional.ctor key d R sigmas = none ∧
      GaussianConditional.ctor1 key d R name1 S sigmas = none ∧
      GaussianConditional.ctor2 key d R name1 S name2 T sigmas = none ∧
      GaussianConditional.ctorList key d R parents sigmas = none := by
  have h1 : ¬ R.rows ≤ R.cols := by omega
  simp [GaussianConditional.ctor, GaussianConditional.ctor1, GaussianConditional.ctor2,
    GaussianConditional.ctorList, h1]

/-- Witness of C9: a matrix with 3 rows and 2 columns. -/
theorem ctor_rejects_tall_witness :
    GaussianConditional.ctor 1 [1, 2, 3] Matrix.tall32 [1, 1, 1] = none ∧
      GaussianConditional.ctor1 1 [1, 2, 3] Matrix.tall32 2 Matrix.tall32 [1, 1, 1] = none ∧
      GaussianConditional.ctor2 1 [1, 2, 3] Matrix.tall32 2 Matrix.tall32 3 Matrix.tall32
        [1, 1, 1] = none ∧
      GaussianConditional.ctorList 1 [1, 2, 3] Matrix.tall32 [(2, Matrix.tall32)] [1, 1, 1]
        = none :=
  ctor_rejects_tall 1 2 3 [1, 2, 3] [1, 1, 1] Matrix.tall32 Matrix.tall32 Matrix.tall32
    [(2, Matrix.tall32)] (by decide)

/-! ## The transposed in-place solve -/

theorem backSubstituteUpper_spec (U : Matrix) (b : Vector) (hsq : U.rows = U.cols)
    (hU : U.IsUpperTriangular) (hD : U.NonzeroDiagonal) (hb : b.length = U.rows) :
    backSubstituteUpper b U = some (backSubT 0 U.data b) ∧
      (backSubT 0 U.data b).length = U.rows ∧ U.tmulVec (backSubT 0 U.data b) = b := by
  refine ⟨?_, ?_, ?_⟩
  · unfold backSubstituteUpper
    rw [if_pos ⟨hsq, by omega⟩]
  · rw [backSubT_length, U.wf.1]
  · have h := backSubT_spec U.rows 0 U.data b
      (upperFrom_of_matrix U U.rows rfl hsq.symm hU hD) (by rw [U.wf.1]; omega)
      (by rw [hb, U.wf.1])
    rw [U.wf.1, hsq] at h
    simpa [Matrix.tmulVec] using h

theorem swapRows_length (v w : Vector) (i j : Nat) (h : swapRows v i j = some w) :
    w.length = v.length := by
  unfold swapRows at h
  split at h
  · cases h; simp
  · cases h

/-- Valid transpositions apply to a vector of the right size and keep its size. -/
theorem permute_valid (t : Transpositions) (k n : Nat) (v : Vector) (hv : v.length = n)
    (hk : k + t.length ≤ n) (ht : ∀ i ∈ t, i < n) :
    ∃ w, permute k t v = some w ∧ w.length = n := by
  induction t generalizing k v with
  | nil => exact ⟨v, rfl, hv⟩
  | cons a t ih =>
    simp only [List.length_cons] at hk
    have ht1 : ∀ i ∈ t, i < n := fun i hi => ht i (List.mem_cons_of_mem _ hi)
    simp only [permute]
    split
    · exact ih (k + 1) v hv (by omega) ht1
    · have ha : a < n := ht a (List.mem_cons_self _ _)
      have hs : swapRows v k a
          = some ((v.set k (v.getD a 0)).set a (v.getD k 0)) := by
        unfold swapRows
        rw [if_pos ⟨by omega, by omega⟩]
      rw [hs]
      exact ih (k + 1) _ (by simp [hv]) (by omega) ht1

theorem vadd_smul_neg_one (a b : Vector) : vadd a (smul (-1) b) = vsub a b := by
  induction a generalizing b with
  | nil => simp [vadd, vsub]
  | cons a0 as ih =>
    cases b with
    | nil => simp [vadd, vsub, smul]
    | cons b0 bs =>
      have h := ih bs
      simp only [vadd, vsub, smul, List.map_cons, List.zipWith_cons_cons] at h ⊢
      rw [h]
      congr 1
      ring

theorem transposeMultiplyAdd_length (alpha : ℚ) (A : Matrix) (e x r : Vector)
    (h : transposeMultiplyAdd alpha A e x = some r) : r.length = x.length := by
  unfold transposeMultiplyAdd at h
  split at h
  · rename_i hc
    cases h
    rw [vadd_length, smul_length, tmulVec_length, hc.2]
    simp
  · cases h

/-- The parent loop of the transposed solve touches the parent keys only. -/
theorem updateParents_frame (y : Vector) (ps : List (Index × Matrix)) (gy : VectorValues)
    (k : Index) (hk : k ∉ ps.map Prod.fst) : (updateParents y ps gy).2 k = gy k := by
  induction ps generalizing gy with
  | nil => rfl
  | cons q ps ih =>
    obtain ⟨i, S⟩ := q
    simp only [List.map_cons, List.mem_cons, not_or] at hk
    simp only [updateParents]
    cases gy i with
    | none => rfl
    | some gi =>
      simp only []
      cases transposeMultiplyAdd (-1) S y gi with
      | none => rfl
      | some gi1 =>
        simp only []
        rw [ih (gy.set i gi1) hk.2, set_other gy i k gi1 hk.1]

/-- The parent loop of the transposed solve keeps the size of every entry. -/
theorem updateParents_sizes (y : Vector) (ps : List (Index × Matrix)) (gy : VectorValues)
    (k : Index) : ((updateParents y ps gy).2 k).map List.length = (gy k).map List.length := by
  induction ps generalizing gy with
  | nil => rfl
  | cons q ps ih =>
    obtain ⟨i, S⟩ := q
    simp only [updateParents]
    cases hi : gy i with
    | none => rfl
    | some gi =>
      simp only []
      cases ht : transposeMultiplyAdd (-1) S y gi with
      | none => rfl
      | some gi1 =>
        simp only []
        rw [ih (gy.set i gi1)]
        by_cases hki : k = i
        · subst hki
          rw [set_same, hi]
          simp [transposeMultiplyAdd_length _ _ _ _ _ ht]
        · rw [set_other gy i k gi1 hki]

/-- With every parent present in the size of its block, the parent loop of the
transposed solve succeeds. -/
theorem updateParents_ok (y : Vector) (ps : List (Index × Matrix)) (gy : VectorValues)
    (hpar : ∀ p ∈ ps, p.2.rows = y.length ∧ ∃ v, gy p.1 = some v ∧ v.length = p.2.cols) :
    (updateParents y ps gy).1 = Status.ok := by
  induction ps generalizing gy with
  | nil => rfl
  | cons q ps ih =>
    obtain ⟨i, S⟩ := q
    obtain ⟨hrows, v, hv, hvl⟩ := hpar (i, S) (List.mem_cons_self _ _)
    simp only at hrows hv hvl
    have ht : transposeMultiplyAdd (-1) S y v = some (vadd v (smul (-1) (S.tmulVec y))) := by
      unfold transposeMultiplyAdd
      rw [if_pos ⟨hrows, hvl.symm⟩]
    simp only [updateParents, hv, ht]
    apply ih
    intro p hp
    obtain ⟨h1, w, hw, hwl⟩ := hpar p (List.mem_cons_of_mem _ hp)
    refine ⟨h1, ?_⟩
    by_cases hpi : p.1 = i
    · rw [hpi, set_same]
      rw [hpi, hv] at hw
      cases hw
      exact ⟨_, rfl, by rw [transposeMultiplyAdd_length _ _ _ _ _ ht, hwl]⟩
    · rw [set_other gy i p.1 _ hpi]
      exact ⟨w, hw, hwl⟩

/-- With pairwise distinct parent keys, the parent loop of the transposed solve
leaves `old - S_iᵀ * y` at every parent. -/
theorem updateParents_values (y : Vector) (ps : List (Index × Matrix)) (gy : VectorValues)
    (hnd : (ps.map Prod.fst).Nodup)
    (hpar : ∀ p ∈ ps, p.2.rows = y.length ∧ ∃ v, gy p.1 = some v ∧ v.length = p.2.cols) :
    ∀ p ∈ ps, ∃ old, gy p.1 = some old ∧
      (updateParents y ps gy).2 p.1 = some (vsub old (p.2.tmulVec y)) := by
  induction ps generalizing gy with
  | nil => intro p hp; cases hp
  | cons q ps ih =>
    obtain ⟨i, S⟩ := q
    simp only [List.map_cons, List.nodup_cons] at hnd
    obtain ⟨hrows, v, hv, hvl⟩ := hpar (i, S) (List.mem_cons_self _ _)
    simp only at hrows hv hvl
    have ht : transposeMultiplyAdd (-1) S y v = some (vsub v (S.tmulVec y)) := by
      unfold transposeMultiplyAdd
      rw [if_pos ⟨hrows, hvl.symm⟩, vadd_smul_neg_one]
    have hpar1 : ∀ p ∈ ps, p.2.rows = y.length ∧
        ∃ w, (gy.set i (vsub v (S.tmulVec y))) p.1 = some w ∧ w.length = p.2.cols := by
      intro p hp
      obtain ⟨h1, w, hw, hwl⟩ := hpar p (List.mem_cons_of_mem _ hp)
      have hpi : p.1 ≠ i := fun h => hnd.1 (h ▸ List.mem_map_of_mem Prod.fst hp)
      exact ⟨h1, w, by rw [set_other gy i p.1 _ hpi, hw], hwl⟩
    intro p hp
    simp only [updateParents, hv, ht]
    rcases List.mem_cons.1 hp with rfl | hp
    · refine ⟨v, hv, ?_⟩
      rw [updateParents_frame y ps _ i hnd.1, set_same]
    · obtain ⟨old, ho, hval⟩ := ih (gy.set i (vsub v (S.tmulVec y))) hnd.2 hpar1 p hp
      have hpi : p.1 ≠ i := fun h => hnd.1 (h ▸ List.mem_map_of_mem Prod.fst hp)
      rw [set_other gy i p.1 _ hpi] at ho
      exact ⟨old, ho, hval⟩

/-- Reading keys from two assignments whose entries have the same sizes gives
vectors of the same size. -/
theorem range_sizes (x y : VectorValues) (js : List Index) (a : Vector)
    (h : ∀ k, (y k).map List.length = (x k).map List.length) (hx : x.range js = some a) :
    ∃ b, y.range js = some b ∧ b.length = a.length := by
  induction js generalizing a with
  | nil =>
    simp only [VectorValues.range, Option.some.injEq] at hx
    subst hx
    exact ⟨[], rfl, rfl⟩
  | cons j js ih =>
    simp only [VectorValues.range] at hx
    cases hxj : x j with
    | none => simp [hxj] at hx
    | some v =>
      cases hxr : x.range js with
      | none => simp [hxj, hxr] at hx
      | some rest =>
        simp only [hxj, hxr, Option.some.injEq] at hx
        subst hx
        obtain ⟨b, hb, hbl⟩ := ih rest hxr
        have hj := h j
        rw [hxj] at hj
        cases hyj : y j with
        | none => simp [hyj] at hj
        | some w =>
          simp only [hyj, Option.map_some', Option.some.injEq] at hj
          exact ⟨w ++ b, by simp [VectorValues.range, hyj, hb], by simp [hj, hbl]⟩

/-- The transposed solve, once the triangular solve and the permutation have
produced the vector `fv`: the parents are updated with `fv`, then `fv` is written
to the frontal keys, and reading them back gives `fv`. -/
theorem solveTransposeInPlace_run (c : GaussianConditional) (gy : VectorValues)
    (b y0 fv : Vector) (hnd : c.frontals.Nodup) (hb : gy.range c.frontals = some b)
    (hs : backSubstituteUpper b c.R = some y0) (hp : permute 0 c.permutation_ y0 = some fv)
    (hfv : fv.length = b.length)
    (hpar : ∀ p ∈ c.parentBlocks,
      p.2.rows = fv.length ∧ ∃ v, gy p.1 = some v ∧ v.length = p.2.cols) :
    c.solveTransposeInPlace gy
        = (updateParents fv c.parentBlocks gy).2.setRange c.frontals 0 fv ∧
      (c.solveTransposeInPlace gy).1 = Status.ok ∧
      (c.solveTransposeInPlace gy).2.range c.frontals = some fv := by
  have hok := updateParents_ok fv c.parentBlocks gy hpar
  have hup : updateParents fv c.parentBlocks gy
      = (Status.ok, (updateParents fv c.parentBlocks gy).2) := Prod.ext hok rfl
  have hrun : c.solveTransposeInPlace gy
      = (updateParents fv c.parentBlocks gy).2.setRange c.frontals 0 fv := by
    unfold GaussianConditional.solveTransposeInPlace
    simp only [hb, hs, hp]
    rw [hup]
  obtain ⟨b1, hb1, hbl⟩ := range_sizes gy (updateParents fv c.parentBlocks gy).2 c.frontals b
    (fun k => updateParents_sizes fv c.parentBlocks gy k) hb
  obtain ⟨hw1, hw2⟩ := setRange_range c.frontals _ 0 fv b1 hnd hb1 (by omega)
  refine ⟨hrun, ?_, ?_⟩
  · rw [hrun]; exact hw1
  · rw [hrun, hw2, List.drop_zero, List.take_of_length_le (by omega)]

/-- C6: for a conditional with a square invertible upper-triangular `R`, identity
row permutation and distinct frontal keys, and an assignment `gy` holding its keys
in the sizes of the blocks, `solveTransposeInPlace` succeeds and the frontal
segment `y` it writes back satisfies `Rᵀ * y = b`, where `b` is the frontal segment
of `gy` before the call. -/
theorem solveTransposeInPlace_solves_transposed (c : GaussianConditional) (gy : VectorValues)
    (b : Vector) (hsq : c.R.rows = c.R.cols) (hU : c.R.IsUpperTriangular)
    (hD : c.R.NonzeroDiagonal) (hP : c.permutation_.IsIdentity) (hnd : c.frontals.Nodup)
    (hb : gy.range c.frontals = some b) (hlen : b.length = c.R.rows)
    (hpar : ∀ p ∈ c.parentBlocks,
      p.2.rows = c.R.rows ∧ ∃ v, gy p.1 = some v ∧ v.length = p.2.cols) :
    (c.solveTransposeInPlace gy).1 = Status.ok ∧
      ∃ y, (c.solveTransposeInPlace gy).2.range c.frontals = some y ∧ c.R.tmulVec y = b := by
  obtain ⟨hs1, hs2, hs3⟩ := backSubstituteUpper_spec c.R b hsq hU hD hlen
  have hperm := permute_identity c.permutation_ 0 (backSubT 0 c.R.data b)
    (fun i hi => by rw [hP i hi, Nat.zero_add])
  obtain ⟨_, h1, h2⟩ := solveTransposeInPlace_run c gy b _ _ hnd hb hs1 hperm
    (by rw [hs2, hlen]) (by rw [hs2]; exact hpar)
  exact ⟨h1, _, h2, hs3⟩

/-- C7: for a conditional with pairwise distinct parent keys disjoint from its
distinct frontal keys, a square `R` and a row permutation that fits it, and an
assignment `gy` holding its keys in the sizes of the blocks,
`solveTransposeInPlace` succeeds, every parent entry becomes its previous value
minus `S_iᵀ * y`, where `y` is the frontal result written by the same call, and
every entry of a key that is neither frontal nor parent is unchanged. -/
theorem solveTransposeInPlace_updates_parents (c : GaussianConditional) (gy : VectorValues)
    (b : Vector) (hsq : c.R.rows = c.R.cols) (hP : c.permutation_.Valid c.R.rows)
    (hnd : c.frontals.Nodup) (hpnd : c.parents.Nodup)
    (hdisj : ∀ k ∈ c.parents, k ∉ c.frontals)
    (hb : gy.range c.frontals = some b) (hlen : b.length = c.R.rows)
    (hpar : ∀ p ∈ c.parentBlocks,
      p.2.rows = c.R.rows ∧ ∃ v, gy p.1 = some v ∧ v.length = p.2.cols) :
    (c.solveTransposeInPlace gy).1 = Status.ok ∧
      ∃ y, (c.solveTransposeInPlace gy).2.range c.frontals = some y ∧
        (∀ p ∈ c.parentBlocks, ∃ old, gy p.1 = some old ∧
          (c.solveTransposeInPlace gy).2 p.1 = some (vsub old (p.2.tmulVec y))) ∧
        (∀ k, k ∉ c.frontals → k ∉ c.parents → (c.solveTransposeInPlace gy).2 k = gy k) := by
  have hs1 : backSubstituteUpper b c.R = some (backSubT 0 c.R.data b) := by
    unfold backSubstituteUpper
    rw [if_pos ⟨hsq, by omega⟩]
  have hs2 : (backSubT 0 c.R.data b).length = c.R.rows := by
    rw [backSubT_length, c.R.wf.1]
  obtain ⟨fv, hfv, hfl⟩ := permute_valid c.permutation_ 0 c.R.rows _ hs2
    (by have := hP.1; omega) hP.2
  have hpar1 : ∀ p ∈ c.parentBlocks,
      p.2.rows = fv.length ∧ ∃ v, gy p.1 = some v ∧ v.length = p.2.cols := by
    rw [hfl]; exact hpar
  obtain ⟨hrun, h1, h2⟩ := solveTransposeInPlace_run c gy b _ fv hnd hb hs1 hfv
    (by rw [hfl, hlen]) hpar1
  refine ⟨h1, fv, h2, ?_, ?_⟩
  · intro p hp
    obtain ⟨old, ho, hval⟩ := updateParents_values fv c.parentBlocks gy hpnd hpar1 p hp
    refine ⟨old, ho, ?_⟩
    have hpf : p.1 ∉ c.frontals := hdisj p.1 (List.mem_map_of_mem Prod.fst hp)
    rw [hrun, setRange_frame c.frontals _ 0 fv p.1 hpf, hval]
  · intro k hkf hkp
    rw [hrun, setRange_frame c.frontals _ 0 fv k hkf,
      updateParents_frame fv c.parentBlocks gy k hkp]

theorem sample_parents_sized (c : GaussianConditional) (v1 v2 : Vector)
    (hc : c.parentBlocks = [(2, Matrix.col2 1 3)]) (hr : c.R.rows = 2) (h2 : v2.length = 1) :
    ∀ p ∈ c.parentBlocks,
      p.2.rows = c.R.rows ∧ ∃ v, assign2 v1 v2 p.1 = some v ∧ v.length = p.2.cols := by
  intro p hp
  rw [hc] at hp
  have hp1 : p = (2, Matrix.col2 1 3) := by simpa using hp
  subst hp1
  exact ⟨hr.symm ▸ rfl, v2, rfl, h2⟩

/-- Witness of C6: the sample conditional on the assignment `x1 = [5, 8]`,
`x2 = [1]`. -/
theorem solveTransposeInPlace_solves_transposed_witness :
    (sampleConditional.solveTransposeInPlace (assign2 [5, 8] [1])).1 = Status.ok ∧
      ∃ y, (sampleConditional.solveTransposeInPlace (assign2 [5, 8] [1])).2.range
          sampleConditional.frontals = some y ∧
        sampleConditional.R.tmulVec y = [5, 8] :=
  solveTransposeInPlace_solves_transposed sampleConditional (assign2 [5, 8] [1]) [5, 8] rfl
    (of2_upper 2 1 4) (of2_diagonal 2 1 0 4 (by norm_num) (by norm_num)) nil_isIdentity
    (by simp [GaussianConditional.frontals, sampleConditional])
    (by simp [GaussianConditional.frontals, sampleConditional, VectorValues.range, assign2])
    rfl (sample_parents_sized sampleConditional [5, 8] [1] rfl rfl rfl)

/-- Witness of C7: the conditional with the row swap on the assignment
`x1 = [5, 8]`, `x2 = [1]`. -/
theorem solveTransposeInPlace_updates_parents_witness :
    (swappedConditional.solveTransposeInPlace (assign2 [5, 8] [1])).1 = Status.ok ∧
      ∃ y, (swappedConditional.solveTransposeInPlace (assign2 [5, 8] [1])).2.range
          swappedConditional.frontals = some y ∧
        (∀ p ∈ swappedConditional.parentBlocks, ∃ old, assign2 [5, 8] [1] p.1 = some old ∧
          (swappedConditional.solveTransposeInPlace (assign2 [5, 8] [1])).2 p.1
            = some (vsub old (p.2.tmulVec y))) ∧
        (∀ k, k ∉ swappedConditional.frontals → k ∉ swappedConditional.parents →
          (swappedConditional.solveTransposeInPlace (assign2 [5, 8] [1])).2 k
            = assign2 [5, 8] [1] k) :=
  solveTransposeInPlace_updates_parents swappedConditional (assign2 [5, 8] [1]) [5, 8] rfl
    ⟨by decide, by decide⟩
    (by simp [GaussianConditional.frontals, swappedConditional])
    (by simp [GaussianConditional.parents, swappedConditional])
    (by simp [GaussianConditional.parents, GaussianConditional.frontals, swappedConditional])
    (by simp [GaussianConditional.frontals, swappedConditional, VectorValues.range, assign2])
    rfl (sample_parents_sized swappedConditional [5, 8] [1] rfl rfl rfl)

/-- With identity permutation the two triangular solves are adjoint:
`<R⁻¹ u, v> = <u, R⁻ᵀ v>` for a square upper-triangular `R` with nonzero diagonal. -/
theorem backSub_adjoint (R : Matrix) (u v : Vector) (hsq : R.rows = R.cols)
    (hU : R.IsUpperTriangular) (hD : R.NonzeroDiagonal) (hu : u.length = R.rows)
    (hv : v.length = R.rows) :
    dot (backSub 0 R.data u) v = dot u (backSubT 0 R.data v) := by
  obtain ⟨_, _, h3⟩ := solveUpper_spec R u hsq hU hD hu
  obtain ⟨_, _, k3⟩ := backSubstituteUpper_spec R v hsq hU hD hv
  have h := dot_mulVecRows R.cols R.data (backSub 0 R.data u) (backSubT 0 R.data v) R.wf.2
  rw [Matrix.mulVec] at h3
  rw [Matrix.tmulVec] at k3
  rw [h3, k3] at h
  exact h.symm

/-- C5 (the code at the failing input): the conditional without parents with
`R = [[1, 1], [0, 2]]` and the stored swap of rows 0 and 1.  `solveInPlace` maps
`u = [1, 0]` to `[0, 1]`, `solveTransposeInPlace` maps `v = [1, 0]` to `[-1/2, 1]`,
and `<solveInPlace u, v> = 0` differs from `<u, solveTransposeInPlace v> = -1/2`. -/
theorem solveTranspose_not_adjoint :
    (swappedRoot.solveInPlace (assign2 [1, 0] [])).2 1 = some [0, 1] ∧
      (swappedRoot.solveTransposeInPlace (assign2 [1, 0] [])).2 1 = some [-1 / 2, 1] ∧
      dot [0, 1] [1, 0] ≠ dot [1, 0] [-1 / 2, 1] := by
  refine ⟨?_, ?_, ?_⟩
  · norm_num [swappedRoot, GaussianConditional.solveInPlace, GaussianConditional.frontals,
      VectorValues.range, assign2, applyParents, Matrix.solveUpper, Matrix.of2, backSub, dot,
      permuteTranspose, swapRows, VectorValues.setRange, segment, VectorValues.set]
  · norm_num [swappedRoot, GaussianConditional.solveTransposeInPlace,
      GaussianConditional.frontals, VectorValues.range, assign2, backSubstituteUpper,
      Matrix.of2, backSubT, vsub, smul, permute, swapRows, updateParents,
      VectorValues.setRange, segment, VectorValues.set]
  · norm_num [dot]

/-! ## The permuted solve -/

theorem permuted_set_view (P : Permuted) (hinj : Function.Injective P.permutation_)
    (j : Index) (v : Vector) : (P.set j v).view = P.view.set j v := by
  funext k
  simp only [Permuted.set, Permuted.view, VectorValues.set, hinj.eq_iff]

/-- The write loop of the permuted solve does to the view what the write loop of
the plain solve does to the plain assignment, when the entries written have the
sizes the conditional declares. -/
theorem setFrontals_view (js : List (Index × Nat)) (P : Permuted) (start : Nat) (v : Vector)
    (hinj : Function.Injective P.permutation_)
    (hdims : ∀ p ∈ js, ∃ w, P.view p.1 = some w ∧ w.length = p.2) :
    (P.setFrontals js start v).1 = (P.view.setRange (js.map Prod.fst) start v).1 ∧
      (P.setFrontals js start v).2.view = (P.view.setRange (js.map Prod.fst) start v).2 := by
  induction js generalizing P start with
  | nil => exact ⟨rfl, rfl⟩
  | cons q js ih =>
    obtain ⟨j, d⟩ := q
    obtain ⟨old, ho, hol⟩ := hdims (j, d) (List.mem_cons_self _ _)
    simp only at ho hol
    simp only [Permuted.setFrontals, List.map_cons, VectorValues.setRange, ho, hol, if_true]
    cases hs : segment v start d with
    | none => exact ⟨rfl, rfl⟩
    | some s =>
      simp only []
      have hsl : s.length = d := segment_length v s start d hs
      have hd1 : ∀ p ∈ js, ∃ w, (P.set j s).view p.1 = some w ∧ w.length = p.2 := by
        intro p hp
        obtain ⟨w, hw, hwl⟩ := hdims p (List.mem_cons_of_mem _ hp)
        rw [permuted_set_view P hinj]
        by_cases hpj : p.1 = j
        · rw [hpj, set_same]
          rw [hpj, ho] at hw
          cases hw
          exact ⟨s, rfl, by rw [hsl, ← hol, hwl]⟩
        · rw [set_other P.view j p.1 s hpj]
          exact ⟨w, hw, hwl⟩
      have h := ih (P.set j s) (start + d) hinj hd1
      rw [permuted_set_view P hinj] at h
      exact h

/-- C8: for a conditional `c` and a permuted assignment (an injective variable
permutation over a container) that holds the keys of `c` in the declared sizes,
the permuted solve has the status of the plain solve on the assignment seen
through the permutation, and leaves at every key the value the plain solve
leaves there. -/
theorem solveInPlacePermuted_agrees (c : GaussianConditional) (P : Permuted)
    (hinj : Function.Injective P.permutation_)
    (hfr : ∀ p ∈ c.frontalDims, ∃ w, P.view p.1 = some w ∧ w.length = p.2)
    (_hpa : ∀ p ∈ c.parentBlocks, ∃ w, P.view p.1 = some w ∧ w.length = p.2.cols) :
    (c.solveInPlacePermuted P).1 = (c.solveInPlace P.view).1 ∧
      ∀ k, (c.solveInPlacePermuted P).2.view k = (c.solveInPlace P.view).2 k := by
  unfold GaussianConditional.solveInPlacePermuted GaussianConditional.solveInPlace
  cases VectorValues.range P.view c.frontals with
  | none => exact ⟨rfl, fun _ => rfl⟩
  | some rhs0 =>
    simp only []
    cases applyParents P.view c.parentBlocks rhs0 with
    | none => exact ⟨rfl, fun _ => rfl⟩
    | some rhs =>
      simp only []
      cases c.R.solveUpper rhs with
      | none => exact ⟨rfl, fun _ => rfl⟩
      | some y =>
        simp only []
        cases permuteTranspose 0 c.permutation_ y with
        | none => exact ⟨rfl, fun _ => rfl⟩
        | some soln =>
          simp only []
          obtain ⟨h1, h2⟩ := setFrontals_view c.frontalDims P 0 soln hinj hfr
          exact ⟨h1, fun k => congrFun h2 k⟩

theorem swapped12_injective (v1 v2 : Vector) :
    Function.Injective (swapped12 v1 v2).permutation_ := by
  have key : ∀ a b : Nat, (if a = 1 then 2 else if a = 2 then 1 else a)
      = (if b = 1 then 2 else if b = 2 then 1 else b) → a = b := by
    intro a b h
    split_ifs at h <;> omega
  intro a b h
  exact key a b h

/-- Witness of C8: the sample conditional on the container `1 ↦ [1]`,
`2 ↦ [5, 8]` seen through the exchange of the keys 1 and 2. -/
theorem solveInPlacePermuted_agrees_witness :
    (sampleConditional.solveInPlacePermuted (swapped12 [1] [5, 8])).1
        = (sampleConditional.solveInPlace (swapped12 [1] [5, 8]).view).1 ∧
      ∀ k, (sampleConditional.solveInPlacePermuted (swapped12 [1] [5, 8])).2.view k
        = (sampleConditional.solveInPlace (swapped12 [1] [5, 8]).view).2 k :=
  solveInPlacePermuted_agrees sampleConditional (swapped12 [1] [5, 8])
    (swapped12_injective [1] [5, 8])
    (by
      intro p hp
      have hp1 : p = (1, 2) := by simpa [sampleConditional] using hp
      subst hp1
      exact ⟨[5, 8], rfl, rfl⟩)
    (by
      intro p hp
      have hp1 : p = (2, Matrix.col2 1 3) := by simpa [sampleConditional] using hp
      subst hp1
      exact ⟨[1], rfl, rfl⟩)

/-! ## Construction and conversion to a factor -/

theorem Matrix.eq_of_data (M N : Matrix) (h1 : M.rows = N.rows) (h2 : M.cols = N.cols)
    (h3 : M.data = N.data) : M = N := by
  cases M
  cases N
  simp_all

theorem zeros_then_drop (k : Nat) (r : List ℚ) (h : ∀ j, j < k → r.getD j 0 = 0) :
    List.replicate (min k r.length) 0 ++ r.drop k = r := by
  induction k generalizing r with
  | zero => simp
  | succ k ih =>
    cases r with
    | nil => simp
    | cons a t =>
      have ha : a = 0 := by simpa using h 0 (by omega)
      have ht : ∀ j, j < k → t.getD j 0 = 0 := by
        intro j hj
        have := h (j + 1) (by omega)
        simpa using this
      have h1 := ih t ht
      simp only [List.length_cons, Nat.add_min_add_right, List.replicate_succ, List.drop_succ_cons,
        List.cons_append, h1, ha]

theorem upperRows_of_upper (M : Matrix) (hU : M.IsUpperTriangular) (rs : List (List ℚ))
    (k : Nat) (hs : ∀ i, i < rs.length → rs.getD i [] = M.data.getD (k + i) []) :
    upperRows k rs = rs := by
  induction rs generalizing k with
  | nil => rfl
  | cons r rs ih =>
    have h0 : r = M.data.getD k [] := by
      have := hs 0 (by simp)
      simpa using this
    have hz : ∀ j, j < k → r.getD j 0 = 0 := by
      intro j hj
      have := hU k j hj
      rwa [Matrix.entry, ← h0] at this
    have ht : ∀ i, i < rs.length → rs.getD i [] = M.data.getD (k + 1 + i) [] := by
      intro i hi
      have h1 := hs (i + 1) (by simpa using hi)
      have h2 : k + 1 + i = k + (i + 1) := by omega
      rw [h2, ← h1]
      simp [List.getD]
    simp only [upperRows, zeros_then_drop k r hz, ih (k + 1) ht]

/-- The upper-triangular view of an upper-triangular matrix is the matrix. -/
theorem triangularViewUpper_of_upper (M : Matrix) (hU : M.IsUpperTriangular) :
    M.triangularViewUpper = M :=
  Matrix.eq_of_data _ _ rfl rfl (upperRows_of_upper M hU M.data 0 (fun i _ => by simp))

theorem ctor_eq_ctorList (key : Index) (d : Vector) (R : Matrix) (sigmas : Vector) :
    GaussianConditional.ctor key d R sigmas = GaussianConditional.ctorList key d R [] sigmas := by
  simp [GaussianConditional.ctor, GaussianConditional.ctorList]

theorem ctor1_eq_ctorList (key : Index) (d : Vector) (R : Matrix) (name1 : Index) (S : Matrix)
    (sigmas : Vector) :
    GaussianConditional.ctor1 key d R name1 S sigmas
      = GaussianConditional.ctorList key d R [(name1, S)] sigmas := by
  simp [GaussianConditional.ctor1, GaussianConditional.ctorList]

theorem ctor2_eq_ctorList (key : Index) (d : Vector) (R : Matrix) (name1 : Index) (S : Matrix)
    (name2 : Index) (T : Matrix) (sigmas : Vector) :
    GaussianConditional.ctor2 key d R name1 S name2 T sigmas
      = GaussianConditional.ctorList key d R [(name1, S), (name2, T)] sigmas := by
  simp [GaussianConditional.ctor2, GaussianConditional.ctorList]

/-- C10 (as amended): for a conditional built from a frontal key, a list of
parents with their blocks, a matrix `R` and a vector `d` that pass construction,
the factor of `toFactor` holds the keys, the blocks `S_i` and `d` as given and
the upper-triangular view of `R`; it holds `R` itself when `R` is upper
triangular. -/
theorem toFactor_reproduces (key : Index) (d : Vector) (R : Matrix)
    (parents : List (Index × Matrix)) (sigmas : Vector) (c : GaussianConditional)
    (h : GaussianConditional.ctorList key d R parents sigmas = some c) :
    c.toFactor.keys = key :: parents.map Prod.fst ∧
      c.toFactor.R = R.triangularViewUpper ∧
      (R.IsUpperTriangular → c.toFactor.R = R) ∧
      c.toFactor.S = parents.map Prod.snd ∧ c.toFactor.b = d := by
  unfold GaussianConditional.ctorList at h
  split at h
  · split at h
    · cases h
      refine ⟨rfl, rfl, ?_, rfl, rfl⟩
      intro hU
      exact triangularViewUpper_of_upper R hU
    · cases h
  · cases h

/-- Witness of C10 (as amended): key 1 with `R = [[2, 1], [0, 4]]`, the parent 2
with block `[[1], [3]]` and `d = [5, 6]`. -/
theorem toFactor_reproduces_witness :
    sampleConditional.toFactor.keys = 1 :: [(2, Matrix.col2 1 3)].map Prod.fst ∧
      sampleConditional.toFactor.R = (Matrix.of2 2 1 0 4).triangularViewUpper ∧
      ((Matrix.of2 2 1 0 4).IsUpperTriangular →
        sampleConditional.toFactor.R = Matrix.of2 2 1 0 4) ∧
      sampleConditional.toFactor.S = [(2, Matrix.col2 1 3)].map Prod.snd ∧
      sampleConditional.toFactor.b = [5, 6] :=
  toFactor_reproduces 1 [5, 6] (Matrix.of2 2 1 0 4) [(2, Matrix.col2 1 3)] [1, 1]
    sampleConditional
    (by
      have hR : (Matrix.of2 2 1 0 4).triangularViewUpper = Matrix.of2 2 1 0 4 :=
        triangularViewUpper_of_upper _ (of2_upper 2 1 4)
      rw [GaussianConditional.ctorList,
        if_pos (show (Matrix.of2 2 1 0 4).rows ≤ (Matrix.of2 2 1 0 4).cols from Nat.le_refl 2),
        if_pos (by simp [Matrix.of2, Matrix.col2]), hR]
      rfl)

/-- C10 (as stated) fails: `R = [[1, 0], [5, 1]]` with `d = [0, 0]` and no parent
passes construction, and the factor of `toFactor` holds `[[1, 0], [0, 1]]`, not
the `R` that was given. -/
theorem toFactor_drops_lower_part :
    ∃ c, GaussianConditional.ctorList 1 [0, 0] (Matrix.of2 1 0 5 1) [] [1, 1] = some c ∧
      c.toFactor.R.data = [[1, 0], [0, 1]] ∧ c.toFactor.R ≠ Matrix.of2 1 0 5 1 := by
  refine ⟨{ frontalDims := [(1, 2)], R := (Matrix.of2 1 0 5 1).triangularViewUpper,
            parentBlocks := [], d := [0, 0], sigmas_ := [1, 1], permutation_ := [] }, ?_, ?_, ?_⟩
  · simp [GaussianConditional.ctorList, Matrix.of2]
  · simp [GaussianConditional.toFactor, Matrix.triangularViewUpper, Matrix.of2, upperRows]
  · intro h
    have h1 := congrArg Matrix.data h
    simp [GaussianConditional.toFactor, Matrix.triangularViewUpper, Matrix.of2, upperRows] at h1

/-! ## Comparison of conditionals -/

theorem row_of_lt (M : Matrix) (i : Nat) (h : i < M.rows) :
    M.row i = some (M.data.getD i []) := by
  have h1 : i < M.data.length := by rw [M.wf.1]; exact h
  simp [Matrix.row, List.getD, List.getElem?_eq_getElem h1]

theorem row_of_ge (M : Matrix) (i : Nat) (h : M.rows ≤ i) : M.row i = none := by
  have h1 : M.data.length ≤ i := by rw [M.wf.1]; exact h
  simp [Matrix.row, h1]

/-- The loop over the parents, when both conditionals have as many parents and
every block has a row `i`: it stops with `keysDiffer` when the parent keys are
not the same, and collects the rows `i` of the blocks otherwise. -/
theorem scanParents_spec (i : Nat) (ps1 ps2 : List (Index × Matrix)) (a b : Vector)
    (hlen : ps1.length = ps2.length) (h1 : ∀ p ∈ ps1, i < p.2.rows)
    (h2 : ∀ p ∈ ps2, i < p.2.rows) :
    scanParents i ps1 ps2 a b =
      if ps1.map Prod.fst = ps2.map Prod.fst then
        ParentScan.rows (a ++ rowsOfParents i ps1) (b ++ rowsOfParents i ps2)
      else ParentScan.keysDiffer := by
  induction ps1 generalizing ps2 a b with
  | nil =>
    cases ps2 with
    | nil => simp [scanParents, rowsOfParents]
    | cons _ _ => simp at hlen
  | cons q1 ps1 ih =>
    cases ps2 with
    | nil => simp at hlen
    | cons q2 ps2 =>
      obtain ⟨k1, S1⟩ := q1
      obtain ⟨k2, S2⟩ := q2
      have hl : ps1.length = ps2.length := by simpa using hlen
      have r1 := row_of_lt S1 i (h1 (k1, S1) (List.mem_cons_self _ _))
      have r2 := row_of_lt S2 i (h2 (k2, S2) (List.mem_cons_self _ _))
      by_cases hk : k1 = k2
      · subst hk
        simp only [scanParents, ne_eq, not_true_eq_false, if_false, r1, r2]
        rw [ih ps2 _ _ hl (fun p hp => h1 p (List.mem_cons_of_mem _ hp))
          (fun p hp => h2 p (List.mem_cons_of_mem _ hp))]
        simp [rowsOfParents, List.append_assoc]
      · simp [scanParents, hk]

/-- The loop of `equals` over the rows, for two conditionals with as many parents
and rows whose blocks have the rows of `R`: it does not fail, and it returns true
exactly when the parent keys are the same (or no row is left), every row left
passes `linear_dependent` and the sigmas pass `equal_with_abs_tol`. -/
theorem equalsRows_spec (lib : VectorComparisons) (c1 c2 : GaussianConditional) (tol : ℚ)
    (hrows : c2.R.rows = c1.R.rows) (hlen : c1.parentBlocks.length = c2.parentBlocks.length)
    (h1 : ∀ p ∈ c1.parentBlocks, p.2.rows = c1.R.rows)
    (h2 : ∀ p ∈ c2.parentBlocks, p.2.rows = c2.R.rows) (m i : Nat) (hm : i + m = c1.R.rows) :
    ∃ b, equalsRows lib c1 c2 tol m i = some b ∧
      (b = true ↔ (m = 0 ∨ c1.parents = c2.parents) ∧
        (∀ j, i ≤ j → j < i + m →
          lib.linear_dependent (c1.concatRow j) (c2.concatRow j) tol = true) ∧
        lib.equal_with_abs_tol c1.sigmas_ c2.sigmas_ tol = true) := by
  induction m generalizing i with
  | zero =>
    refine ⟨_, rfl, ?_⟩
    constructor
    · intro h
      exact ⟨Or.inl rfl, fun j hj1 hj2 => by omega, h⟩
    · intro h
      exact h.2.2
  | succ m ih =>
    have hi1 : i < c1.R.rows := by omega
    have hi2 : i < c2.R.rows := by omega
    have hs := scanParents_spec i c1.parentBlocks c2.parentBlocks (c1.R.data.getD i [])
      (c2.R.data.getD i []) hlen (fun p hp => by rw [h1 p hp]; exact hi1)
      (fun p hp => by rw [h2 p hp]; exact hi2)
    simp only [equalsRows, row_of_lt c1.R i hi1, row_of_lt c2.R i hi2, hs]
    by_cases hk : c1.parents = c2.parents
    · have hk1 : c1.parentBlocks.map Prod.fst = c2.parentBlocks.map Prod.fst := hk
      simp only [hk1, if_true]
      by_cases hld : lib.linear_dependent (c1.concatRow i) (c2.concatRow i) tol = true
      · have hld1 : lib.linear_dependent
            (c1.R.data.getD i [] ++ rowsOfParents i c1.parentBlocks)
            (c2.R.data.getD i [] ++ rowsOfParents i c2.parentBlocks) tol = true := hld
        simp only [hld1, if_true]
        obtain ⟨b, hb, hiff⟩ := ih (i + 1) (by omega)
        refine ⟨b, hb, ?_⟩
        rw [hiff]
        constructor
        · rintro ⟨_, hr, he⟩
          refine ⟨Or.inr hk, ?_, he⟩
          intro j hj1 hj2
          by_cases hji : j = i
          · rw [hji]; exact hld
          · exact hr j (by omega) (by omega)
        · rintro ⟨_, hr, he⟩
          exact ⟨Or.inr hk, fun j hj1 hj2 => hr j (by omega) (by omega), he⟩
      · have hld1 : ¬ lib.linear_dependent
            (c1.R.data.getD i [] ++ rowsOfParents i c1.parentBlocks)
            (c2.R.data.getD i [] ++ rowsOfParents i c2.parentBlocks) tol = true := hld
        simp only [hld1, if_false]
        refine ⟨false, rfl, ?_⟩
        constructor
        · intro h; cases h
        · rintro ⟨_, hr, _⟩
          exact absurd (hr i (Nat.le_refl i) (by omega)) hld
    · have hk1 : ¬ c1.parentBlocks.map Prod.fst = c2.parentBlocks.map Prod.fst := hk
      simp only [hk1, if_false]
      refine ⟨false, rfl, ?_⟩
      constructor
      · intro h; cases h
      · rintro ⟨h0, _, _⟩
        rcases h0 with h0 | h0
        · omega
        · exact absurd h0 hk

/-- What `equals` computes on two conditionals with the same number of rows whose
blocks have the rows of `R`: it does not fail, and it returns true exactly when
the parent counts are the same, the parent keys are the same or there is no row,
every row of `[R | S_1 | ...]` passes `linear_dependent` and the sigmas pass
`equal_with_abs_tol`. -/
theorem equals_spec (lib : VectorComparisons) (c1 c2 : GaussianConditional) (tol : ℚ)
    (hrows : c2.R.rows = c1.R.rows)
    (h1 : ∀ p ∈ c1.parentBlocks, p.2.rows = c1.R.rows)
    (h2 : ∀ p ∈ c2.parentBlocks, p.2.rows = c2.R.rows) :
    ∃ b, c1.equals lib c2 tol = some b ∧
      (b = true ↔ c1.parents.length = c2.parents.length ∧
        (c1.R.rows = 0 ∨ c1.parents = c2.parents) ∧
        (∀ j, j < c1.R.rows →
          lib.linear_dependent (c1.concatRow j) (c2.concatRow j) tol = true) ∧
        lib.equal_with_abs_tol c1.sigmas_ c2.sigmas_ tol = true) := by
  unfold GaussianConditional.equals
  by_cases hl : c1.parents.length = c2.parents.length
  · have hl1 : c1.parentBlocks.length = c2.parentBlocks.length := by
      simpa [GaussianConditional.parents] using hl
    obtain ⟨b, hb, hiff⟩ := equalsRows_spec lib c1 c2 tol hrows hl1 h1 h2 c1.R.rows 0
      (Nat.zero_add _)
    simp only [ne_eq, hl, not_true_eq_false, if_false]
    refine ⟨b, hb, ?_⟩
    rw [hiff]
    constructor
    · rintro ⟨hk, hr, he⟩
      exact ⟨trivial, hk, fun j hj => hr j (Nat.zero_le j) (by omega), he⟩
    · rintro ⟨_, hk, hr, he⟩
      exact ⟨hk, fun j _ hj => hr j (by omega), he⟩
  · simp only [ne_eq, hl, not_false_eq_true, if_true]
    refine ⟨false, rfl, ?_⟩
    constructor
    · intro h; cases h
    · rintro ⟨h, _⟩
      exact h.elim

/-- On two conditionals with the same positive number of rows whose blocks have
the rows of `R`, `equals` does not fail and returns true exactly when the parent
counts are the same, the parent keys agree at every position, every row of
`[R | S_1 | ...]` passes `linear_dependent` and the sigmas pass
`equal_with_abs_tol`. -/
theorem equals_iff_of_rows (lib : VectorComparisons) (c1 c2 : GaussianConditional) (tol : ℚ)
    (hrows : c2.R.rows = c1.R.rows) (hpos : 0 < c1.R.rows)
    (h1 : ∀ p ∈ c1.parentBlocks, p.2.rows = c1.R.rows)
    (h2 : ∀ p ∈ c2.parentBlocks, p.2.rows = c2.R.rows) :
    (∃ b, c1.equals lib c2 tol = some b) ∧
      (c1.equals lib c2 tol = some true ↔ c1.parents.length = c2.parents.length ∧
        (∀ k, c1.parents.get? k = c2.parents.get? k) ∧
        (∀ j, j < c1.R.rows →
          lib.linear_dependent (c1.concatRow j) (c2.concatRow j) tol = true) ∧
        lib.equal_with_abs_tol c1.sigmas_ c2.sigmas_ tol = true) := by
  obtain ⟨b, hb, hiff⟩ := equals_spec lib c1 c2 tol hrows h1 h2
  refine ⟨⟨b, hb⟩, ?_⟩
  rw [hb, Option.some.injEq, hiff]
  constructor
  · rintro ⟨hl, hk, hr, he⟩
    rcases hk with hk | hk
    · omega
    · exact ⟨hl, fun k => by rw [hk], hr, he⟩
  · rintro ⟨hl, hk, hr, he⟩
    exact ⟨hl, Or.inr (List.ext_get? hk), hr, he⟩

/-- When the parent counts differ, `equals` returns false. -/
theorem equals_of_parent_counts_differ (lib : VectorComparisons) (c1 c2 : GaussianConditional)
    (tol : ℚ) (h : c1.parents.length ≠ c2.parents.length) :
    c1.equals lib c2 tol = some false := by
  unfold GaussianConditional.equals
  rw [if_pos h]

theorem ctor1_emptyConditional (j : Index) :
    GaussianConditional.ctor1 1 [] (Matrix.zeroRows 0) j (Matrix.zeroRows 1) []
      = some (emptyConditional j) := by
  simp [GaussianConditional.ctor1, emptyConditional, Matrix.zeroRows]

/-- C11 (the code at the failing input): the two conditionals without rows that
the one-parent constructor builds from an empty `d` with the parent 2 and with
the parent 3 have different parent keys, and `equals` returns for them what the
comparison of the two empty sigma vectors returns, the parent keys being never
compared: true with a comparison that accepts equal vectors. -/
theorem equals_ignores_parent_keys_without_rows (lib : VectorComparisons) (tol : ℚ) :
    GaussianConditional.ctor1 1 [] (Matrix.zeroRows 0) 2 (Matrix.zeroRows 1) []
        = some (emptyConditional 2) ∧
      GaussianConditional.ctor1 1 [] (Matrix.zeroRows 0) 3 (Matrix.zeroRows 1) []
        = some (emptyConditional 3) ∧
      (emptyConditional 2).parents = [2] ∧ (emptyConditional 3).parents = [3] ∧
      (emptyConditional 2).equals lib (emptyConditional 3) tol
        = some (lib.equal_with_abs_tol [] [] tol) ∧
      (emptyConditional 2).equals sampleComparisons (emptyConditional 3) tol = some true := by
  refine ⟨ctor1_emptyConditional 2, ctor1_emptyConditional 3, rfl, rfl, ?_, ?_⟩
  · simp [GaussianConditional.equals, GaussianConditional.parents, emptyConditional,
      Matrix.triangularViewUpper, Matrix.zeroRows, equalsRows]
  · simp [GaussianConditional.equals, GaussianConditional.parents, emptyConditional,
      Matrix.triangularViewUpper, Matrix.zeroRows, equalsRows, sampleComparisons, withinTol]

/-- C12: `equals` is reflexive.  For a conditional whose parent blocks have the
rows of `R` and a tolerance `tol >= 0`, given that `linear_dependent` and
`equal_with_abs_tol` accept a vector against itself, `c.equals(c, tol)` returns
true. -/
theorem equals_refl (lib : VectorComparisons) (c : GaussianConditional) (tol : ℚ)
    (_htol : 0 ≤ tol) (hwf : ∀ p ∈ c.parentBlocks, p.2.rows = c.R.rows)
    (hld : ∀ v, lib.linear_dependent v v tol = true)
    (heq : ∀ v, lib.equal_with_abs_tol v v tol = true) :
    c.equals lib c tol = some true := by
  obtain ⟨b, hb, hiff⟩ := equals_spec lib c c tol rfl hwf hwf
  have hbt : b = true := hiff.2 ⟨rfl, Or.inr rfl, fun j _ => hld _, heq _⟩
  rw [hb, hbt]

theorem withinTol_self (v : Vector) (tol : ℚ) (h : 0 ≤ tol) : withinTol v v tol = true := by
  induction v with
  | nil => rfl
  | cons a v ih => simp [withinTol, ih, h]

/-- Witness of C12: the sample conditional with the elementwise comparison within
the tolerance `1 / 10`. -/
theorem equals_refl_witness :
    sampleConditional.equals sampleComparisons sampleConditional (1 / 10) = some true :=
  equals_refl sampleComparisons sampleConditional (1 / 10) (by norm_num)
    (by
      intro p hp
      have hp1 : p = (2, Matrix.col2 1 3) := by simpa [sampleConditional] using hp
      subst hp1
      rfl)
    (fun v => withinTol_self v _ (by norm_num))
    (fun v => withinTol_self v _ (by norm_num))

/-- C13 (the code at the failing inputs): `equals` reads row `i` of the other
conditional for every row index of `this` without comparing the row counts.
Against the default-constructed conditional, which has no row, the conditional on
key 3 with one row fails at row 0; against the conditional whose `R` is the one
row `[[2, 1]]`, the conditional with `R = [[2, 1], [0, 4]]` fails at row 1 as soon
as the rows 0 pass `linear_dependent`; so does the sample conditional, whose
row 0 of `[R | S]` is `[2, 1, 1]`, against the conditional with `R = [[2]]` and
the block `[[1, 1]]` for the same parent. -/
theorem equals_fails_on_fewer_rows (lib : VectorComparisons) (tol : ℚ) :
    rootConditional.equals lib GaussianConditional.default tol = none ∧
      squareConditional.equals lib wideConditional tol
        = (if lib.linear_dependent [2, 1] [2, 1] tol then none else some false) ∧
      squareConditional.equals sampleComparisons wideConditional 0 = none ∧
      sampleConditional.equals lib shortConditional tol
        = (if lib.linear_dependent [2, 1, 1] [2, 1, 1] tol then none else some false) := by
  refine ⟨?_, ?_, ?_, ?_⟩
  rotate_left 3
  · simp [GaussianConditional.equals, GaussianConditional.parents, sampleConditional,
      shortConditional, equalsRows, Matrix.row, Matrix.of2, Matrix.col2, Matrix.one1,
      scanParents]
  · simp [GaussianConditional.equals, GaussianConditional.parents, rootConditional,
      GaussianConditional.default, equalsRows, Matrix.row, Matrix.one1]
  · simp [GaussianConditional.equals, GaussianConditional.parents, squareConditional,
      wideConditional, equalsRows, Matrix.row, Matrix.of2, scanParents]
  · simp [GaussianConditional.equals, GaussianConditional.parents, squareConditional,
      wideConditional, equalsRows, Matrix.row, Matrix.of2, scanParents, sampleComparisons,
      withinTol]

/-- The wide conditional is what the constructor without parents builds from the
one row `[[2, 1]]` and `d = [5]`. -/
theorem ctor_wideConditional :
    GaussianConditional.ctor 1 [5] ⟨1, 2, [[2, 1]], by simp⟩ [1] = some wideConditional := by
  have hR : (⟨1, 2, [[2, 1]], by simp⟩ : Matrix).triangularViewUpper
      = ⟨1, 2, [[2, 1]], by simp⟩ :=
    Matrix.eq_of_data _ _ rfl rfl (by simp [Matrix.triangularViewUpper, upperRows])
  rw [GaussianConditional.ctor, if_pos (by decide),
    if_pos (show (⟨1, 2, [[2, 1]], by simp⟩ : Matrix).rows = [(5 : ℚ)].length from rfl), hR]
  rfl

/-! ## Scaling by the sigmas -/

theorem emul_getD (a s : Vector) (k : Nat) (ha : k < a.length) (hs : k < s.length) :
    (emul a s).getD k 0 = a.getD k 0 * s.getD k 0 := by
  have hk : k < (emul a s).length := by simp [emul, ha, hs]
  simp [emul, List.getD, List.getElem?_eq_getElem, ha, hs]

/-- C14: for a conditional with distinct frontal keys whose sigma vector has the
size of the frontal segment, and an assignment holding the frontal keys,
`scaleFrontalsBySigma` succeeds, the scalar `k` of the frontal segment becomes the
scalar `k` of the old frontal segment times `s[k]`, and every entry of a key that
is not frontal is unchanged. -/
theorem scaleFrontalsBySigma_scales (c : GaussianConditional) (gy : VectorValues) (b : Vector)
    (hnd : c.frontals.Nodup) (hb : gy.range c.frontals = some b)
    (hs : c.sigmas_.length = b.length) :
    (c.scaleFrontalsBySigma gy).1 = Status.ok ∧
      (∃ b1, (c.scaleFrontalsBySigma gy).2.range c.frontals = some b1 ∧
        b1.length = b.length ∧
        ∀ k, k < b.length → b1.getD k 0 = b.getD k 0 * c.sigmas_.getD k 0) ∧
      ∀ j, j ∉ c.frontals → (c.scaleFrontalsBySigma gy).2 j = gy j := by
  have hrun : c.scaleFrontalsBySigma gy = gy.setRange c.frontals 0 (emul b c.sigmas_) := by
    simp only [GaussianConditional.scaleFrontalsBySigma, hb, hs, if_true]
  have hel : (emul b c.sigmas_).length = b.length := by simp [emul, hs]
  obtain ⟨hw1, hw2⟩ := setRange_range c.frontals gy 0 (emul b c.sigmas_) b hnd hb
    (by rw [hel]; omega)
  rw [hrun]
  refine ⟨hw1, ⟨emul b c.sigmas_, ?_, hel, ?_⟩, ?_⟩
  · rw [hw2, List.drop_zero, List.take_of_length_le (Nat.le_of_eq hel)]
  · intro k hk
    exact emul_getD b c.sigmas_ k hk (by omega)
  · intro j hj
    exact setRange_frame c.frontals gy 0 _ j hj

/-- Witness of C14: the conditional with the sigmas `[2, 3]` on the assignment
`x1 = [5, 8]`, `x2 = [1]`. -/
theorem scaleFrontalsBySigma_scales_witness :
    (squareConditional.scaleFrontalsBySigma (assign2 [5, 8] [1])).1 = Status.ok ∧
      (∃ b1, (squareConditional.scaleFrontalsBySigma (assign2 [5, 8] [1])).2.range
          squareConditional.frontals = some b1 ∧
        b1.length = [(5 : ℚ), 8].length ∧
        ∀ k, k < [(5 : ℚ), 8].length →
          b1.getD k 0 = [(5 : ℚ), 8].getD k 0 * squareConditional.sigmas_.getD k 0) ∧
      ∀ j, j ∉ squareConditional.frontals →
        (squareConditional.scaleFrontalsBySigma (assign2 [5, 8] [1])).2 j
          = assign2 [5, 8] [1] j :=
  scaleFrontalsBySigma_scales squareConditional (assign2 [5, 8] [1]) [5, 8]
    (by simp [GaussianConditional.frontals, squareConditional])
    (by simp [GaussianConditional.frontals, squareConditional, VectorValues.range, assign2])
    rfl

/-! ## Cliques -/

/-- C18: after `f.add(k, c)` the frontal keys are `k` followed by the old frontal
keys, the conditionals are `c` followed by the old conditionals, and the separator
is the old separator, whatever the parents of `c` are. -/
theorem front_add_prepends {C : Type} (f : Front C) (k : String) (c : C) :
    (f.add k c).keys_ = k :: f.keys_ ∧ (f.add k c).nodes_ = c :: f.nodes_ ∧
      (f.add k c).separator_ = f.separator_ :=
  ⟨rfl, rfl, rfl⟩

/-- C20: the clique `Front(k, c)` has the frontal keys `[k]`, the conditionals
`[c]` and, as separator, the parent list of `c` in the same order. -/
theorem front_ctor_fields {C : Type} [Conditional C] (k : String) (c : C) :
    (Front.ctor k c).keys_ = [k] ∧ (Front.ctor k c).nodes_ = [c] ∧
      (Front.ctor k c).separator_ = Conditional.parents c :=
  ⟨rfl, rfl, rfl⟩

theorem foldl_add_fields {C : Type} (more : List (String × C)) (f : Front C) :
    (more.foldl (fun g p => g.add p.1 p.2) f).keys_ = more.reverse.map Prod.fst ++ f.keys_ ∧
      (more.foldl (fun g p => g.add p.1 p.2) f).nodes_
        = more.reverse.map Prod.snd ++ f.nodes_ ∧
      (more.foldl (fun g p => g.add p.1 p.2) f).separator_ = f.separator_ := by
  induction more generalizing f with
  | nil => exact ⟨rfl, rfl, rfl⟩
  | cons q more ih =>
    obtain ⟨h1, h2, h3⟩ := ih (f.add q.1 q.2)
    simp only [List.foldl_cons, List.reverse_cons, List.map_append, List.map_cons, List.map_nil,
      List.append_assoc, List.singleton_append]
    exact ⟨h1, h2, h3⟩

/-- C19: in a clique built by the constructor from one pair and `add` for further
pairs, the frontal keys are the keys of the pairs and the conditionals are the
conditionals of the pairs, both in reverse order of addition; so the two lists
have the same length and the conditional at a position is the one supplied with
the key at that position. -/
theorem front_build_aligned {C : Type} [Conditional C] (first : String × C)
    (more : List (String × C)) :
    (Front.build first more).keys_ = (more.reverse ++ [first]).map Prod.fst ∧
      (Front.build first more).nodes_ = (more.reverse ++ [first]).map Prod.snd ∧
      (Front.build first more).keys_.length = (Front.build first more).nodes_.length ∧
      List.zip (Front.build first more).keys_ (Front.build first more).nodes_
        = more.reverse ++ [first] := by
  obtain ⟨h1, h2, _⟩ := foldl_add_fields more (Front.ctor first.1 first.2)
  have hk : (Front.build first more).keys_ = (more.reverse ++ [first]).map Prod.fst := by
    rw [Front.build, h1]
    simp [Front.ctor, Front.add]
  have hn : (Front.build first more).nodes_ = (more.reverse ++ [first]).map Prod.snd := by
    rw [Front.build, h2]
    simp [Front.ctor, Front.add]
  refine ⟨hk, hn, ?_, ?_⟩
  · rw [hk, hn, List.length_map, List.length_map]
  · rw [hk, hn]
    exact (List.zip_of_prod rfl rfl).symm

/-! ## The Bayes tree -/

/-- C17: `root()` returns the clique at position 0 of the node vector when the
tree has a node, and yields no clique on an empty tree. -/
theorem root_is_first_node {C : Type} (n : Node C) (ns : List (Node C))
    (m : String → Option Nat) :
    BayesTree.root (⟨n :: ns, m⟩ : BayesTree C) = some n.toFront ∧
      BayesTree.root (⟨[], m⟩ : BayesTree C) = none :=
  ⟨rfl, rfl⟩

/-- C16: when the first parent key of the conditional is not a key of the key map,
`insert` fails and leaves the tree, its node vector and its key map, as it was. -/
theorem insert_unknown_parent {C : Type} [Conditional C] (absorbs : Front C → C → Bool)
    (t : BayesTree C) (key : String) (conditional : C) (parent : String) (rest : List String)
    (hp : Conditional.parents conditional = parent :: rest) (hm : t.nodeMap_ parent = none) :
    t.insert absorbs key conditional = (Status.failed, t) := by
  unfold BayesTree.insert
  split
  · rfl
  · rw [if_neg]
    simp [hp, hm]

/-- Witness of C16: the conditional of `x1` with the parent `x9` on the empty
tree. -/
theorem insert_unknown_parent_witness :
    (BayesTree.empty : BayesTree SymbolicConditional).insert absorbsEqualSeparator "x1"
        (SymbolicConditional.mk ["x9"]) = (Status.failed, BayesTree.empty) :=
  insert_unknown_parent absorbsEqualSeparator BayesTree.empty "x1"
    (SymbolicConditional.mk ["x9"]) "x9" [] rfl rfl

/-- C21: `a.equals(b, tol)` is true exactly when the frontal key lists are the
same; two cliques with the same frontal keys are reported equal whatever their
conditionals and separators are. -/
theorem front_equals_iff_keys {C : Type} (a b : Front C) (tol : ℚ) (ks : List String)
    (n1 n2 : List C) (s1 s2 : List String) :
    (a.equals b tol = true ↔ a.keys_ = b.keys_) ∧
      (Front.mk ks n1 s1).equals (Front.mk ks n2 s2) tol = true := by
  simp [Front.equals]

/-- C22: `size()` is the number of frontal keys plus the number of separator
keys; a clique built by the constructor from a conditional with `p` parents and
`n` calls of `add` has size `n + 1 + p`. -/
theorem front_size_counts_keys {C : Type} [Conditional C] (f : Front C) (first : String × C)
    (more : List (String × C)) :
    f.size = f.keys_.length + f.separator_.length ∧
      (Front.build first more).size = more.length + 1 + (Conditional.parents first.2).length := by
  obtain ⟨h1, _, h3⟩ := foldl_add_fields more (Front.ctor first.1 first.2)
  refine ⟨rfl, ?_⟩
  rw [Front.size, Front.build, h1, h3]
  simp [Front.ctor, Front.add]

/-! ## Where the right-hand side of the solve comes from -/

theorem parentSum_congr (n : Nat) (x y : VectorValues) (ps : List (Index × Matrix))
    (h : ∀ p ∈ ps, x p.1 = y p.1) : parentSum n x ps = parentSum n y ps := by
  induction ps with
  | nil => rfl
  | cons q ps ih =>
    obtain ⟨j, S⟩ := q
    have hj : x j = y j := h (j, S) (List.mem_cons_self _ _)
    simp only [parentSum, hj, ih (fun p hp => h p (List.mem_cons_of_mem _ hp))]

/-- The in-place solve on well-sized input: it succeeds, and the frontal segment
it leaves is the solution of `R * x = b - sum_i S_i * x[parent_i]`, `b` being the
frontal segment before the call. -/
theorem solveInPlace_run (c : GaussianConditional) (x : VectorValues) (b : Vector)
    (hsq : c.R.rows = c.R.cols) (hU : c.R.IsUpperTriangular) (hD : c.R.NonzeroDiagonal)
    (hP : c.permutation_.IsIdentity) (hnd : c.frontals.Nodup)
    (hb : x.range c.frontals = some b) (hlen : b.length = c.R.rows)
    (hpar : ∀ p ∈ c.parentBlocks,
      p.2.rows = c.R.rows ∧ ∃ v, x p.1 = some v ∧ v.length = p.2.cols) :
    (c.solveInPlace x).1 = Status.ok ∧
      ∃ xn, (c.solveInPlace x).2.range c.frontals = some xn ∧
        c.R.mulVec xn = vsub b (parentSum c.R.rows x c.parentBlocks) := by
  have hrhs := applyParents_spec c.R.rows x c.parentBlocks b hlen hpar
  have hrl : (vsub b (parentSum c.R.rows x c.parentBlocks)).length = c.R.rows := by
    rw [applyParents_length x c.parentBlocks b _ hrhs, hlen]
  obtain ⟨hs1, hs2, hs3⟩ := solveUpper_spec c.R _ hsq hU hD hrl
  have hperm := permuteTranspose_identity c.permutation_ 0
    (backSub 0 c.R.data (vsub b (parentSum c.R.rows x c.parentBlocks)))
    (fun i hi => by rw [hP i hi, Nat.zero_add])
  obtain ⟨hw1, hw2⟩ := setRange_range c.frontals x 0
    (backSub 0 c.R.data (vsub b (parentSum c.R.rows x c.parentBlocks))) b hnd hb
    (by rw [hs2, hlen, Nat.zero_add])
  have hrun : c.solveInPlace x = x.setRange c.frontals 0
      (backSub 0 c.R.data (vsub b (parentSum c.R.rows x c.parentBlocks))) := by
    simp only [GaussianConditional.solveInPlace, hb, hrhs, hs1, hperm]
  rw [hrun]
  refine ⟨hw1, _, hw2, ?_⟩
  rw [List.drop_zero, hlen, List.take_of_length_le (Nat.le_of_eq hs2), hs3]

/-- C24: `solveInPlace` takes its right-hand side from the assignment.  For a
conditional with square invertible upper-triangular `R`, identity permutation,
distinct frontal keys and parents that are not frontal, and an assignment `x`
holding its keys in the sizes of the blocks: the frontal segment written
satisfies `R * x_new = x_old - sum_i S_i * x[parent_i]`; the result is the same
whatever the stored `d` is; and after `rhs(x)` has written `d` to `x`, the segment
written satisfies `R * x_new = d - sum_i S_i * x[parent_i]`. -/
theorem solveInPlace_rhs_from_assignment (c : GaussianConditional) (x : VectorValues)
    (b : Vector) (hsq : c.R.rows = c.R.cols) (hU : c.R.IsUpperTriangular)
    (hD : c.R.NonzeroDiagonal) (hP : c.permutation_.IsIdentity) (hnd : c.frontals.Nodup)
    (hdisj : ∀ k ∈ c.parents, k ∉ c.frontals)
    (hb : x.range c.frontals = some b) (hlen : b.length = c.R.rows)
    (hd : c.d.length = c.R.rows)
    (hpar : ∀ p ∈ c.parentBlocks,
      p.2.rows = c.R.rows ∧ ∃ v, x p.1 = some v ∧ v.length = p.2.cols) :
    ((c.solveInPlace x).1 = Status.ok ∧
      ∃ xn, (c.solveInPlace x).2.range c.frontals = some xn ∧
        c.R.mulVec xn = vsub b (parentSum c.R.rows x c.parentBlocks)) ∧
    (∀ d1, GaussianConditional.solveInPlace { c with d := d1 } x = c.solveInPlace x) ∧
    ((c.rhs x).1 = Status.ok ∧ (c.solveInPlace (c.rhs x).2).1 = Status.ok ∧
      ∃ xn, (c.solveInPlace (c.rhs x).2).2.range c.frontals = some xn ∧
        c.R.mulVec xn = vsub c.d (parentSum c.R.rows x c.parentBlocks)) := by
  refine ⟨solveInPlace_run c x b hsq hU hD hP hnd hb hlen hpar, fun _ => rfl, ?_⟩
  obtain ⟨hw1, hw2⟩ := setRange_range c.frontals x 0 c.d b hnd hb (by omega)
  have hkeep : ∀ p ∈ c.parentBlocks, (c.rhs x).2 p.1 = x p.1 := by
    intro p hp
    exact setRange_frame c.frontals x 0 c.d p.1 (hdisj p.1 (List.mem_map_of_mem Prod.fst hp))
  have hbd : (c.rhs x).2.range c.frontals = some c.d := by
    rw [GaussianConditional.rhs, hw2, List.drop_zero, List.take_of_length_le (by omega)]
  have hpar1 : ∀ p ∈ c.parentBlocks,
      p.2.rows = c.R.rows ∧ ∃ v, (c.rhs x).2 p.1 = some v ∧ v.length = p.2.cols := by
    intro p hp
    rw [hkeep p hp]
    exact hpar p hp
  obtain ⟨h1, xn, h2, h3⟩ := solveInPlace_run c (c.rhs x).2 c.d hsq hU hD hP hnd hbd hd hpar1
  refine ⟨hw1, h1, xn, h2, ?_⟩
  rw [h3, parentSum_congr c.R.rows (c.rhs x).2 x c.parentBlocks hkeep]

/-- Witness of C24: the sample conditional on the assignment `x1 = [5, 8]`,
`x2 = [1]`. -/
theorem solveInPlace_rhs_from_assignment_witness :
    ((sampleConditional.solveInPlace (assign2 [5, 8] [1])).1 = Status.ok ∧
      ∃ xn, (sampleConditional.solveInPlace (assign2 [5, 8] [1])).2.range
          sampleConditional.frontals = some xn ∧
        sampleConditional.R.mulVec xn = vsub [5, 8]
          (parentSum sampleConditional.R.rows (assign2 [5, 8] [1])
            sampleConditional.parentBlocks)) ∧
    (∀ d1, GaussianConditional.solveInPlace { sampleConditional with d := d1 }
        (assign2 [5, 8] [1]) = sampleConditional.solveInPlace (assign2 [5, 8] [1])) ∧
    ((sampleConditional.rhs (assign2 [5, 8] [1])).1 = Status.ok ∧
      (sampleConditional.solveInPlace (sampleConditional.rhs (assign2 [5, 8] [1])).2).1
        = Status.ok ∧
      ∃ xn, (sampleConditional.solveInPlace
          (sampleConditional.rhs (assign2 [5, 8] [1])).2).2.range sampleConditional.frontals
          = some xn ∧
        sampleConditional.R.mulVec xn = vsub sampleConditional.d
          (parentSum sampleConditional.R.rows (assign2 [5, 8] [1])
            sampleConditional.parentBlocks)) :=
  solveInPlace_rhs_from_assignment sampleConditional (assign2 [5, 8] [1]) [5, 8] rfl
    (of2_upper 2 1 4) (of2_diagonal 2 1 0 4 (by norm_num) (by norm_num)) nil_isIdentity
    (by simp [GaussianConditional.frontals, sampleConditional])
    (by simp [GaussianConditional.parents, GaussianConditional.frontals, sampleConditional])
    (by simp [GaussianConditional.frontals, sampleConditional, VectorValues.range, assign2])
    rfl rfl (sample_parents_sized sampleConditional [5, 8] [1] rfl rfl rfl)

/-! ## What the constructors store -/

theorem upperRows_getD (rs : List (List ℚ)) (k i : Nat) :
    (upperRows k rs).getD i []
      = List.replicate (min (k + i) (rs.getD i []).length) 0 ++ (rs.getD i []).drop (k + i) := by
  induction rs generalizing k i with
  | nil => simp [upperRows]
  | cons r rs ih =>
    cases i with
    | zero => simp [upperRows]
    | succ i =>
      have h := ih (k + 1) i
      have hk : k + 1 + i = k + (i + 1) := by omega
      rw [hk] at h
      simpa [upperRows] using h

theorem zeros_then_drop_getD (r : List ℚ) (m j : Nat) :
    (List.replicate (min m r.length) 0 ++ r.drop m).getD j 0
      = if m ≤ j then r.getD j 0 else 0 := by
  simp only [List.getD_eq_getElem?_getD, List.getElem?_append, List.length_replicate,
    List.getElem?_replicate, List.getElem?_drop]
  by_cases hj : j < min m r.length
  · have hmj : ¬ m ≤ j := by omega
    simp [hj, hmj]
  · simp only [hj, if_false]
    by_cases hm : m ≤ r.length
    · have hmin : min m r.length = m := by omega
      have hmj : m ≤ j := by omega
      have hadd : m + (j - m) = j := by omega
      simp [hmin, hmj, hadd]
    · have hmin : min m r.length = r.length := by omega
      have h1 : r.length ≤ m + (j - min m r.length) := by omega
      have h2 : r.length ≤ j := by omega
      simp [List.getElem?_eq_none h1, List.getElem?_eq_none h2]

/-- Entry `(i, j)` of the upper-triangular view is the entry of the matrix on and
right of the diagonal, and zero below the diagonal. -/
theorem triangularViewUpper_entry (M : Matrix) (i j : Nat) :
    M.triangularViewUpper.entry i j = if i ≤ j then M.entry i j else 0 := by
  simp only [Matrix.entry, Matrix.triangularViewUpper, upperRows_getD, Nat.zero_add,
    zeros_then_drop_getD]

theorem triangularViewUpper_isUpper (M : Matrix) : M.triangularViewUpper.IsUpperTriangular := by
  intro i j h
  rw [triangularViewUpper_entry, if_neg (by omega)]

theorem ctorList_stores (key : Index) (d : Vector) (R : Matrix)
    (parents : List (Index × Matrix)) (sigmas : Vector) (hle : R.rows ≤ R.cols)
    (hd : R.rows = d.length) (hps : ∀ p ∈ parents, p.2.rows = d.length) :
    ∃ c, GaussianConditional.ctorList key d R parents sigmas = some c ∧
      StoresUpperTriangle c R parents d := by
  refine ⟨_, by rw [GaussianConditional.ctorList, if_pos hle, if_pos ⟨hd, hps⟩], ?_⟩
  exact ⟨fun i j => triangularViewUpper_entry R i j, rfl, rfl, triangularViewUpper_isUpper R⟩

/-- C25: each of the four constructors, on an input `R` with `rows <= cols` and
blocks and `d` of matching row counts, builds a conditional whose stored `R` has
the entry `R(i, j)` for `j >= i` and zero for `j < i`, and whose parent blocks and
`d` are the ones given; the stored `R` is upper triangular. -/
theorem ctor_keeps_upper_triangle (key name1 name2 : Index) (d sigmas : Vector)
    (R S T : Matrix) (parents : List (Index × Matrix)) (hle : R.rows ≤ R.cols)
    (hd : R.rows = d.length) (hS : S.rows = d.length) (hT : T.rows = d.length)
    (hps : ∀ p ∈ parents, p.2.rows = d.length) :
    (∃ c, GaussianConditional.ctor key d R sigmas = some c ∧ StoresUpperTriangle c R [] d) ∧
      (∃ c, GaussianConditional.ctor1 key d R name1 S sigmas = some c ∧
        StoresUpperTriangle c R [(name1, S)] d) ∧
      (∃ c, GaussianConditional.ctor2 key d R name1 S name2 T sigmas = some c ∧
        StoresUpperTriangle c R [(name1, S), (name2, T)] d) ∧
      (∃ c, GaussianConditional.ctorList key d R parents sigmas = some c ∧
        StoresUpperTriangle c R parents d) := by
  refine ⟨?_, ?_, ?_, ctorList_stores key d R parents sigmas hle hd hps⟩
  · rw [ctor_eq_ctorList]
    exact ctorList_stores key d R [] sigmas hle hd (fun p hp => by cases hp)
  · rw [ctor1_eq_ctorList]
    apply ctorList_stores key d R _ sigmas hle hd
    intro p hp
    have hp1 : p = (name1, S) := by simpa using hp
    rw [hp1]
    exact hS
  · rw [ctor2_eq_ctorList]
    apply ctorList_stores key d R _ sigmas hle hd
    intro p hp
    have hp1 : p = (name1, S) ∨ p = (name2, T) := by simpa using hp
    rcases hp1 with rfl | rfl
    · exact hS
    · exact hT

/-- Witness of C25: the input `R = [[1, 0], [5, 1]]`, which is not upper
triangular, with `d = [0, 0]` and blocks with two rows. -/
theorem ctor_keeps_upper_triangle_witness :
    (∃ c, GaussianConditional.ctor 1 [0, 0] (Matrix.of2 1 0 5 1) [1, 1] = some c ∧
        StoresUpperTriangle c (Matrix.of2 1 0 5 1) [] [0, 0]) ∧
      (∃ c, GaussianConditional.ctor1 1 [0, 0] (Matrix.of2 1 0 5 1) 2 (Matrix.col2 1 3) [1, 1]
          = some c ∧
        StoresUpperTriangle c (Matrix.of2 1 0 5 1) [(2, Matrix.col2 1 3)] [0, 0]) ∧
      (∃ c, GaussianConditional.ctor2 1 [0, 0] (Matrix.of2 1 0 5 1) 2 (Matrix.col2 1 3) 3
          (Matrix.col2 2 4) [1, 1] = some c ∧
        StoresUpperTriangle c (Matrix.of2 1 0 5 1)
          [(2, Matrix.col2 1 3), (3, Matrix.col2 2 4)] [0, 0]) ∧
      (∃ c, GaussianConditional.ctorList 1 [0, 0] (Matrix.of2 1 0 5 1) [(2, Matrix.col2 1 3)]
          [1, 1] = some c ∧
        StoresUpperTriangle c (Matrix.of2 1 0 5 1) [(2, Matrix.col2 1 3)] [0, 0]) :=
  ctor_keeps_upper_triangle 1 2 3 [0, 0] [1, 1] (Matrix.of2 1 0 5 1) (Matrix.col2 1 3)
    (Matrix.col2 2 4) [(2, Matrix.col2 1 3)] (Nat.le_refl 2) rfl rfl rfl
    (by
      intro p hp
      have hp1 : p = (2, Matrix.col2 1 3) := by simpa using hp
      rw [hp1]
      rfl)

/-! ## What the comparison of conditionals does not look at -/

theorem concatRow_congr (c1 c2 : GaussianConditional) (hR : c2.R = c1.R)
    (hB : c2.parentBlocks = c1.parentBlocks) (j : Nat) : c2.concatRow j = c1.concatRow j := by
  rw [GaussianConditional.concatRow, GaussianConditional.concatRow, hR, hB]

/-- C26: `equals` looks neither at the right-hand side nor at the frontal keys.
For two conditionals with the same `R`, the same parents with the same blocks
(of the rows of `R`) and the same sigmas, `equals` returns true, given that
`linear_dependent` and `equal_with_abs_tol` accept a vector against itself,
whatever the two right-hand sides and the frontal keys are. -/
theorem equals_ignores_rhs_and_frontals (lib : VectorComparisons) (c1 c2 : GaussianConditional)
    (tol : ℚ) (hR : c2.R = c1.R) (hB : c2.parentBlocks = c1.parentBlocks)
    (hS : c2.sigmas_ = c1.sigmas_) (hwf : ∀ p ∈ c1.parentBlocks, p.2.rows = c1.R.rows)
    (hld : ∀ v, lib.linear_dependent v v tol = true)
    (heq : ∀ v, lib.equal_with_abs_tol v v tol = true) :
    c1.equals lib c2 tol = some true := by
  have hp : c1.parents = c2.parents := by
    rw [GaussianConditional.parents, GaussianConditional.parents, hB]
  obtain ⟨b, hb, hiff⟩ := equals_spec lib c1 c2 tol (by rw [hR]) hwf (by rw [hB, hR]; exact hwf)
  have hbt : b = true := by
    refine hiff.2 ⟨by rw [hp], Or.inr hp, ?_, ?_⟩
    · intro j _
      rw [concatRow_congr c1 c2 hR hB j]
      exact hld _
    · rw [hS]
      exact heq _
  rw [hb, hbt]

/-- Witness of C26: the sample conditional against the conditional with the same
blocks and sigmas, the frontal key 7 instead of 1 and `d = [0, 0]` instead of
`[5, 6]`. -/
theorem equals_ignores_rhs_and_frontals_witness :
    sampleConditional.equals sampleComparisons sampleConditionalOther (1 / 10) = some true ∧
      sampleConditional.d ≠ sampleConditionalOther.d ∧
      sampleConditional.frontals ≠ sampleConditionalOther.frontals :=
  ⟨equals_ignores_rhs_and_frontals sampleComparisons sampleConditional sampleConditionalOther
    (1 / 10) rfl rfl rfl
    (by
      intro p hp
      have hp1 : p = (2, Matrix.col2 1 3) := by simpa [sampleConditional] using hp
      subst hp1
      rfl)
    (fun v => withinTol_self v _ (by norm_num))
    (fun v => withinTol_self v _ (by norm_num)),
   by norm_num [sampleConditional, sampleConditionalOther],
   by simp [GaussianConditional.frontals, sampleConditional, sampleConditionalOther]⟩

end gtsam
